import Mathlib

/-!
Verification development for the scratchmark markdown parser
(`scratchmark.js`, the standalone browser build).

The JavaScript source is shallowly embedded here:
* JS strings are embedded as `Str := List Char` (UTF-16 details are
  irrelevant for the inputs considered: every character fits in one unit).
* JS plain objects used as string-keyed dictionaries are embedded as
  association lists (first binding wins on lookup, update replaces).
* fallible JS evaluation (a statement that throws `ReferenceError` or
  `TypeError`) is embedded with `Except JsErr`.
* the mutable `lines` array that block parsers destructively consume is
  embedded by explicit state passing: a parser returns the node it produced
  (or `none` for a declined parse) together with the array as it left it.
* per-document mutable parser state (footnote citations and definitions,
  href definitions, the config object) is a `DocSt` record threaded through
  the parse.
-/

/-- JS strings are modelled as lists of characters. -/
abbrev Str := List Char

/-- Errors thrown by the JavaScript runtime while the embedded code runs. -/
inductive JsErr where
  | refErr (msg : String)
  | typeErr (msg : String)
deriving Repr, DecidableEq

deriving instance DecidableEq for Except

/-- `line == ''` — the blank-line predicate (lines are right-trimmed). -/
def blankline (line : Str) : Bool := line = []

/-- `line?.startsWith?.(' ')` — the indented-line predicate. -/
def indented (line : Str) : Bool := line.head? = some ' ' 

/-- `s.startsWith(p)` on the list embedding. -/
def strStarts (s p : Str) : Bool := p.isPrefixOf s

/-- Number of leading spaces of a line. -/
def countLeadingSpaces : Str → Nat
  | ' ' :: rest => countLeadingSpaces rest + 1
  | _ => 0

/-- Drop `n` characters from the front (`s.slice(n)`). -/
def strDrop (s : Str) (n : Nat) : Str := s.drop n

/-- JS `trimRight` / `trimEnd` on a line: drop trailing whitespace. -/
def trimR (s : Str) : Str := (s.reverse.dropWhile Char.isWhitespace).reverse

/-- `lines.replace('\t', '    ')`: JS `String.replace` with a string pattern
replaces only the FIRST occurrence of the tab in the whole document. -/
def replaceFirstTab : Str → Str
  | [] => []
  | '\t' :: rest => ' ' :: ' ' :: ' ' :: ' ' :: rest
  | c :: rest => c :: replaceFirstTab rest

/-- `split(/\r?\n/)`: split on newline, an immediately preceding `\r`
belongs to the separator. -/
def splitNL : Str → List Str
  | [] => [[]]
  | '\r' :: '\n' :: rest => [] :: splitNL rest
  | '\n' :: rest => [] :: splitNL rest
  | c :: rest =>
    match splitNL rest with
    | [] => [[c]]
    | l :: ls => (c :: l) :: ls

/-- `line.endsWith('\\')`. -/
def endsWithBackslash (s : Str) : Bool :=
  match s.reverse with
  | '\\' :: _ => true
  | _ => false

/-- The line-continuation joining loop of `scratchmark`:
`joined = [lines.shift()]; for line of lines: if joined.at(-1).endsWith('\\')
then joined[-1] = joined[-1][:-1] + line else joined.push(line)`. -/
def joinCont (acc : List Str) : List Str → List Str
  | [] => acc
  | line :: rest =>
    match acc.reverse with
    | [] => joinCont [line] rest
    | lastL :: front =>
      if endsWithBackslash lastL then
        joinCont ((lastL.dropLast ++ line) :: front).reverse rest
      else
        joinCont (acc ++ [line]) rest

/-- The line normalisation performed at the top of `scratchmark`:
replace the first tab, split into lines, right-trim, join `\`-continuations,
right-trim again. -/
def normalizeLines (doc : Str) : List Str :=
  let ls := (splitNL (replaceFirstTab doc)).map trimR
  match ls with
  | [] => []
  | h :: t => (joinCont [h] t).map trimR

/-- A config value: `config[name] = isNaN(+value) ? value : +value`.
`undef` models storing JS `undefined` (a `key: value` line with no colon).
JS numbers are doubles; the only values reachable in the modelled code are
integers, so the numeric case carries an `Int` (the handler that fills the
config is in fact unreachable, see `fenced_codeblock`). -/
inductive CVal where
  | num (n : Int)
  | sv (s : Str)
  | undef
deriving Repr, DecidableEq

/-- The AST entity.  `el` is a plain node `{name, attributes, children, text}`
plus the `type:'inline'` flag (`inl`) and the `key` field that footnote
citations carry.  A JS `children` array may also contain raw strings
(`html_groups` pushes untouched lines) and nested arrays (footnote
postprocessing pushes `children: [defs]` where `defs` is an array), hence
the `nstr` and `ngroup` constructors. -/
inductive Node where
  | el (name : String) (attrs : List (String × Str)) (children : Option (List Node))
       (txt : Option Str) (inl : Bool) (key : Option Str)
  | nstr (s : Str)
  | ngroup (g : List Node)
deriving Repr

/-- A text node `{name:'text', text: s}`. -/
def Node.textN (s : Str) : Node := .el "text" [] none (some s) false none

/-- A node `{name, children}` with no attributes. -/
def Node.tag (name : String) (ch : List Node) : Node :=
  .el name [] (some ch) none false none

/-- A node `{name, attributes, children}`. -/
def Node.tagA (name : String) (attrs : List (String × Str)) (ch : List Node) : Node :=
  .el name attrs (some ch) none false none

/-- The name of a node (`undefined`-ish constructors give `""`). -/
def Node.nodeName : Node → String
  | .el n _ _ _ _ _ => n
  | _ => ""

/-- `ast.forEach(node => node.type = 'inline')` on one node. -/
def Node.setInline : Node → Node
  | .el n a c t _ k => .el n a c t true k
  | n => n

/-- Association-list lookup, JS `obj[key]` (first binding wins). -/
def alookup {α : Type} (l : List (Str × α)) (k : Str) : Option α :=
  match l.find? (fun p => p.1 = k) with
  | some p => some p.2
  | none => none

/-- Association-list update, JS `obj[key] = v` (replaces in place or appends,
preserving insertion order as `for..in` enumeration does). -/
def aupdate {α : Type} (l : List (Str × α)) (k : Str) (v : α) : List (Str × α) :=
  if (l.find? (fun p => p.1 = k)).isSome then
    l.map (fun p => if p.1 = k then (k, v) else p)
  else l ++ [(k, v)]

/-- Attribute lookup on a node's attribute object (string-named keys). -/
def attrLookup (l : List (String × Str)) (k : String) : Option Str :=
  match l.find? (fun p => p.1 = k) with
  | some p => some p.2
  | none => none

/-- Attribute update `node.attributes[k] = v`. -/
def attrUpdate (l : List (String × Str)) (k : String) (v : Str) : List (String × Str) :=
  if (l.find? (fun p => p.1 = k)).isSome then
    l.map (fun p => if p.1 = k then (k, v) else p)
  else l ++ [(k, v)]

/-- The per-document mutable parser state: `footnote_def.cites` (in the JS the
list holds references to the citation nodes; here it records their keys, in
the same push order), `footnote_def.defs`, `href_def.defs`, and the module
`config` object filled by a config fence. -/
structure DocSt where
  cites : List Str
  fdefs : List (Str × List Str)
  hdefs : List (Str × Str)
  config : List (Str × CVal)
deriving Repr

/-- The document state after every parser's `init()` has run. -/
def DocSt.init : DocSt := ⟨[], [], [], []⟩

/-! ## `ParserCollection`

`class ParserCollection extends Array { ... }` with the `byname` index.  The
`add` method reads only the `name` property of the descriptor being stored,
so descriptors are embedded by their name. -/

/-- A parser descriptor as seen by the registry (only `name` is consulted). -/
structure PDesc where
  name : String
deriving Repr, DecidableEq

/-- An ordered parser collection with its `byname` index. -/
structure ParserCollection where
  arr : List PDesc
  byname : List (String × PDesc)
deriving Repr, DecidableEq

/-- `ParserCollection.add(parser, before)`:
`if (before) { idx = findIndex(name == before); if (idx == -1) throw
'no parser called ' + before; splice(idx, 0, parser) } else push(parser);
byname[parser.name] = parser`.  Note `if (before)` is a JS truthiness test:
it takes the insert path only when `before` is present AND non-empty. -/
def ParserCollection.add (c : ParserCollection) (p : PDesc) (before : Option String) :
    Except String ParserCollection :=
  let push : ParserCollection :=
    ⟨c.arr ++ [p], (if (c.byname.find? (fun q => q.1 = p.name)).isSome then
        c.byname.map (fun q => if q.1 = p.name then (p.name, p) else q)
      else c.byname ++ [(p.name, p)])⟩
  match before with
  | none => .ok push
  | some b =>
    if b = "" then .ok push
    else
      match c.arr.findIdx? (fun q => q.name = b) with
      | none => .error ("no parser called " ++ b)
      | some idx =>
        .ok ⟨c.arr.take idx ++ p :: c.arr.drop idx,
          (if (c.byname.find? (fun q => q.1 = p.name)).isSome then
            c.byname.map (fun q => if q.1 = p.name then (p.name, p) else q)
          else c.byname ++ [(p.name, p)])⟩

/-! ## Inline parsing

`noesc`, `make_re`/`make_indexOf` (literal search with a `(?<!\\)` negative
lookbehind), the `delimited`/`capture` helpers, the bespoke link/image
parsers, and the `parse_inline` scanning loop. -/

/-- `noesc(txt) = txt.replaceAll(/\\(?!\\)/g, '')`: remove every backslash
not immediately followed by another backslash, scanning left to right
without overlap. -/
def noesc : Str → Str
  | [] => []
  | '\\' :: rest =>
    match rest with
    | '\\' :: _ => '\\' :: noesc rest
    | _ => noesc rest
  | c :: rest => c :: noesc rest

/-- Search step for `findUnescaped`, counting down on `k`. -/
def findUnescapedAux (text pat : Str) : Nat → Nat → Option Nat
  | 0, _ => none
  | k + 1, i =>
    if strStarts (text.drop i) pat &&
        (decide (i = 0) || ((text.drop (i - 1)).head? != some '\\')) then
      some i
    else findUnescapedAux text pat k (i + 1)

/-- `make_re(txt)` builds `(?<!\\)` + escaped `txt` as a global regex;
running it with `lastIndex = start` finds the first occurrence of the
literal `pat` at or after `start` whose preceding character is not a
backslash (the lookbehind may inspect the character before `start`). -/
def findUnescaped (text pat : Str) (start : Nat) : Option Nat :=
  findUnescapedAux text pat (text.length + 1 - start) start

/-- The inline cursor state `{text, cursor}`. -/
structure IState where
  text : Str
  cursor : Nat
deriving Repr

/-- `grab(state, target, start, end_ok)`: scan for `target` (unescaped) from
`cursor + start`; on a hit return `text.slice(start + cursor, idx)` and move
the cursor to `idx`; on a miss with `end_ok` return the rest of the text and
move the cursor to the end; otherwise fail (`-1`). -/
def grab (st : IState) (target : Str) (startOff : Nat) (endOk : Bool) :
    Option (Str × IState) :=
  match findUnescaped st.text target (st.cursor + startOff) with
  | some idx =>
    some (((st.text.drop (startOff + st.cursor)).take (idx - (startOff + st.cursor))),
      { st with cursor := idx })
  | none =>
    if endOk then some (st.text.drop (startOff + st.cursor), { st with cursor := st.text.length })
    else none

/-- The built-in inline grammars.  `delim` is `delimited(name, start, end)`
(recursively parsed interior), `cap` is `capture(name, start, end)` with the
default `noesc` text filter, `cite` is the footnote-citation capture with
its wrapping process function, `link`/`image` are the bespoke `a`/`img`
parsers. -/
inductive IGram where
  | delim (name : String) (ds de : Str)
  | cap (name : String) (cs ce : Str)
  | cite
  | link
  | image
deriving Repr

/-- The inline parser registry, in registration order (longer delimiters
before their prefixes). -/
def inlineGrams : List IGram :=
  [.delim "strong" "**".toList "**".toList,
   .delim "em" "*".toList "*".toList,
   .delim "strong" "__".toList "__".toList,
   .delim "em" "_".toList "_".toList,
   .delim "sup" "^".toList "^".toList,
   .delim "sub" "~".toList "~".toList,
   .cap "code" "`".toList "`".toList,
   .cite, .link, .image]

/-- `parser.indexOf(text, start)`: position of the parser's start delimiter. -/
def IGram.idxOf (g : IGram) (text : Str) (start : Nat) : Option Nat :=
  match g with
  | .delim _ ds _ => findUnescaped text ds start
  | .cap _ cs _ => findUnescaped text cs start
  | .cite => findUnescaped text "[^".toList start
  | .link => findUnescaped text "[".toList start
  | .image => findUnescaped text "![".toList start

/-- One pass over `currentparsers`: compute every parser's match position,
keep the closest strictly-improving one (ties go to the terminator, then to
the earlier-registered parser), and drop parsers that can no longer match. -/
def selectGram (grams : List IGram) (st : IState) (idx0 : Nat) :
    Nat × Option IGram × List IGram :=
  grams.foldl
    (fun b g =>
      match g.idxOf st.text st.cursor with
      | none => b
      | some i =>
        if i < b.1 then (i, some g, b.2.2 ++ [g])
        else (b.1, b.2.1, b.2.2 ++ [g]))
    (idx0, none, [])

/-- The `parse_inline` loop.  `fuel` bounds the chain of loop iterations and
recursive invocations (it is given generously by the wrappers; exhaustion
returns what has been accumulated).  `ender` is the `endsWith` terminator;
`grams` is `currentparsers`; `acc` is the `ast` accumulator.  Returns the
(unflagged) nodes, the cursor state, and the document state. -/
def parseInlineF : Nat → IState → Option Str → DocSt → List IGram → List Node →
    (List Node × IState × DocSt)
  | 0, st, _, ds, _, acc => (acc, st, ds)
  | fuel + 1, st, ender, ds, grams, acc =>
    if st.cursor < st.text.length then
      let enderIdx :=
        match ender with
        | none => st.text.length
        | some e => (findUnescaped st.text e st.cursor).getD st.text.length
      let sel := selectGram grams st enderIdx
      let idx := sel.1
      let acc1 :=
        if st.cursor < idx then
          acc ++ [Node.textN (noesc ((st.text.drop st.cursor).take (idx - st.cursor)))]
        else acc
      let st1 := if st.cursor < idx then { st with cursor := idx } else st
      match sel.2.1 with
      | none => (acc1, st1, ds)
      | some g =>
        match g with
        | .delim name dstart dend =>
          let stA := { st1 with cursor := st1.cursor + dstart.length }
          let inner := parseInlineF fuel stA (some dend) ds inlineGrams []
          let children := inner.1.map Node.setInline
          let stC := { inner.2.1 with cursor := inner.2.1.cursor + dend.length }
          parseInlineF fuel stC ender inner.2.2 sel.2.2 (acc1 ++ [Node.tag name children])
        | .cap name cstart cend =>
          let stA := { st1 with cursor := st1.cursor + cstart.length }
          match grab stA cend 0 true with
          | some (txt, stB) =>
            let stC := { stB with cursor := stB.cursor + cend.length }
            parseInlineF fuel stC ender ds sel.2.2
              (acc1 ++ [Node.tag name [Node.textN (noesc txt)]])
          | none =>
            parseInlineF fuel { stA with cursor := stA.cursor + 1 } ender ds sel.2.2
              (acc1 ++ [Node.textN (noesc ((stA.text.drop stA.cursor).take 1))])
        | .cite =>
          let stA := { st1 with cursor := st1.cursor + 2 }
          match grab stA "]".toList 0 true with
          | some (txt, stB) =>
            let stC := { stB with cursor := stB.cursor + 1 }
            let inner := noesc txt
            let key := noesc inner
            let anode : Node := .el "a" [] (some [Node.textN inner]) none false (some key)
            let item : Node := Node.tag "sup" [anode]
            parseInlineF fuel stC ender { ds with cites := ds.cites ++ [key] } sel.2.2
              (acc1 ++ [item])
          | none =>
            parseInlineF fuel { stA with cursor := stA.cursor + 1 } ender ds sel.2.2
              (acc1 ++ [Node.textN (noesc ((stA.text.drop stA.cursor).take 1))])
        | .link =>
          let c0 := st1.cursor
          let stA := { st1 with cursor := c0 + 1 }
          let inner := parseInlineF fuel stA (some "](".toList) ds inlineGrams []
          let children := inner.1.map Node.setInline
          match grab inner.2.1 ")".toList 2 false with
          | none =>
            parseInlineF fuel { st1 with cursor := c0 + 1 } ender inner.2.2 sel.2.2
              (acc1 ++ [Node.textN (noesc ((st1.text.drop c0).take 1))])
          | some (hrefRaw, stC) =>
            let stD := { stC with cursor := stC.cursor + 1 }
            let href := noesc hrefRaw
            let children2 := if children.isEmpty then [Node.textN href] else children
            let node : Node := .el "a" [("href", href)] (some children2) none false none
            parseInlineF fuel stD ender inner.2.2 sel.2.2 (acc1 ++ [node])
        | .image =>
          let c0 := st1.cursor
          let stA := { st1 with cursor := c0 + 2 }
          match grab stA "](".toList 0 false with
          | none =>
            parseInlineF fuel { st1 with cursor := c0 + 1 } ender ds sel.2.2
              (acc1 ++ [Node.textN (noesc ((st1.text.drop c0).take 1))])
          | some (altRaw, stB) =>
            match grab stB ")".toList 2 false with
            | none =>
              parseInlineF fuel { st1 with cursor := c0 + 1 } ender ds sel.2.2
                (acc1 ++ [Node.textN (noesc ((st1.text.drop c0).take 1))])
            | some (srcRaw, stC) =>
              let stD := { stC with cursor := stC.cursor + 1 }
              let node : Node :=
                .el "img" [("src", noesc srcRaw), ("alt", noesc altRaw)] none none false none
              parseInlineF fuel stD ender ds sel.2.2 (acc1 ++ [node])
    else (acc, st, ds)

/-- `parse_inline(text)` on a plain string: run the loop from cursor 0 with
no terminator and flag every produced node as inline. -/
def parseInlineStr (s : Str) (ds : DocSt) : List Node × DocSt :=
  let r := parseInlineF (4 * s.length + 16) ⟨s, 0⟩ none ds inlineGrams []
  (r.1.map Node.setInline, r.2.2)

/-! ## Block parsing

`grablines`, the list subsystem (`list_item`, `deblank`, `dedent`,
`checkloose`), each built-in block grammar, and the `parse_blocks` loop.
A block parser is embedded as a function from the callback record, the
line array and the document state to `Except JsErr` of (produced node or
`none` for a declined parse, the line array as the parser left it, new
document state). -/

/-- The `{parse_blocks, parse_inline}` record handed to block parsers. -/
structure CB where
  parse_blocks : List Str → DocSt → Except JsErr (List Node × DocSt)
  parse_inline : Str → DocSt → List Node × DocSt

/-- The result type of a block parser. -/
abbrev BRes := Except JsErr (Option Node × List Str × DocSt)

/-- A block parser. -/
abbrev BParser := CB → List Str → DocSt → BRes

/-- `grablines(lines, predicate)`: the grabbed leading run and the rest. -/
def grablines (p : Str → Bool) : List Str → List Str × List Str
  | [] => ([], [])
  | l :: rest =>
    if p l then
      let r := grablines p rest
      (l :: r.1, r.2)
    else ([], l :: rest)

/-- Join a line array with `'\n'` (`text.join('\n')`). -/
def joinNL (ls : List Str) : Str := List.intercalate "\n".toList ls

/-- `{name:'omit'}` — the placeholder node for definition-style parsers. -/
def omitNode : Node := .el "omit" [] none none false none

/-- `^#{1,6} ` — the header match; returns the matched text (hashes and the
space).  Seven or more hashes never match (each backtracking attempt finds a
hash where the space is required). -/
def headerMatch (line : Str) : Option Str :=
  let k := (line.takeWhile (fun c => c = '#')).length
  if 1 ≤ k ∧ k ≤ 6 ∧ (line.drop k).head? = some ' ' then some (line.take (k + 1))
  else none

/-- `line.replace(/#+$/, '')`: remove a trailing run of hashes. -/
def dropTrailingHashes (s : Str) : Str :=
  (s.reverse.dropWhile (fun c => c = '#')).reverse

/-- The `header` block parser. -/
def headerParse : BParser := fun cb lines ds =>
  match lines with
  | [] => .error (.typeErr "cannot read match of undefined")
  | l0 :: rest =>
    match headerMatch l0 with
    | none => .ok (none, lines, ds)
    | some pfx =>
      let line := dropTrailingHashes (l0.drop pfx.length)
      let r := cb.parse_inline line ds
      .ok (some (Node.tag ("h" ++ toString (pfx.length - 1)) r.1), rest, r.2)

/-- `line.replace(/^> ?/, '')`: one leading `>` and at most one space. -/
def stripQuote : Str → Str
  | '>' :: ' ' :: rest => rest
  | '>' :: rest => rest
  | l => l

/-- The `blockquote` block parser. -/
def blockquoteParse : BParser := fun cb lines ds =>
  let g := grablines (fun l => strStarts l ">".toList) lines
  if g.1.isEmpty then .ok (none, lines, ds)
  else
    match cb.parse_blocks (g.1.map stripQuote) ds with
    | .error e => .error e
    | .ok (ch, ds') => .ok (some (Node.tag "blockquote" ch), g.2, ds')

/-- The `indented_codeblock` block parser. -/
def indentedParse : BParser := fun _cb lines ds =>
  let g := grablines (fun l => strStarts l "    ".toList) lines
  if g.1.isEmpty then .ok (none, lines, ds)
  else
    .ok (some (Node.tag "codeblock" (g.1.map (fun c => Node.textN (c.drop 4)))), g.2, ds)

/-- `c.replace(/^\\```/, '```')`: drop one escaping backslash before a
leading fence. -/
def unescapeFenceLine (c : Str) : Str :=
  if strStarts c "\\```".toList then c.drop 1 else c

/-- The `fenced_codeblock` block parser.  For a fence type with a defined
handler (`config`, `verbatim`, `omit`) the source evaluates
`fencehandler[type]?.parse?.(children)` — `children` is an undeclared
identifier there (the grabbed lines are in the variable `block`), so the
call's argument evaluation throws `ReferenceError`.  For any other fence
type the optional chain short-circuits before the arguments are evaluated
and the generic codeblock is produced. -/
def fencedParse : BParser := fun _cb lines ds =>
  match lines with
  | [] => .ok (none, lines, ds)
  | l0 :: rest =>
    if strStarts l0 "```".toList then
      let ftype := l0.drop 3
      let g := grablines (fun l => !strStarts l "```".toList) rest
      let remaining := g.2.drop 1
      if ftype = "config".toList ∨ ftype = "verbatim".toList ∨ ftype = "omit".toList then
        .error (.refErr "children is not defined")
      else
        .ok (some (Node.tag "codeblock" (g.1.map (fun c => Node.textN (unescapeFenceLine c)))),
          remaining, ds)
    else .ok (none, lines, ds)

/-- Trim both ends (JS `String.trim`). -/
def trimBoth (s : Str) : Str := trimR (s.dropWhile Char.isWhitespace)

/-- Split a string on every occurrence of a separator character
(JS `String.split` with a one-character string). -/
def splitCh (sep : Char) : Str → List Str
  | [] => [[]]
  | c :: rest =>
    if c = sep then [] :: splitCh sep rest
    else
      match splitCh sep rest with
      | [] => [[c]]
      | l :: ls => (c :: l) :: ls

/-- JS `Number(value)` on an already-trimmed string, restricted to the
integer literals that can occur here (the empty string converts to 0;
anything non-numeric is `NaN`, signalled by `none`).  Fractional JS numbers
are not modelled: the only caller is the unreachable config fence handler. -/
def jsNumber (s : Str) : Option Int :=
  let digitsVal : Str → Option Int := fun dsr =>
    if dsr ≠ [] ∧ dsr.all Char.isDigit then
      some (dsr.foldl (fun a c => a * 10 + (c.toNat - 48)) (0 : Int))
    else none
  match s with
  | [] => some 0
  | '-' :: rest => (digitsVal rest).map Int.neg
  | '+' :: rest => digitsVal rest
  | _ => digitsVal s

/-- `fencehandler.config.parse(lines)`: each `key: value` line sets
`config[key]` to a number when `+value` is not `NaN`, else to the raw
(string or `undefined`) value; returns `{name:'omit'}`.  (Unreachable from
`fenced_codeblock`, which throws before the call; kept as the handler's own
definition.) -/
def fencehandlerConfig (lines : List Str) (config : List (Str × CVal)) :
    List (Str × CVal) × Node :=
  let step := fun (cfg : List (Str × CVal)) (line : Str) =>
    let parts := (splitCh ':' line).map trimBoth
    let key := parts.headD []
    match parts.get? 1 with
    | none => aupdate cfg key .undef
    | some v =>
      match jsNumber v with
      | some n => aupdate cfg key (.num n)
      | none => aupdate cfg key (.sv v)
  (lines.foldl step config, omitNode)

/-! ### The list subsystem -/

/-- A collected list item: its marker text and its lines. -/
structure LItem where
  pfx : Str
  lines : List Str
deriving Repr, DecidableEq

/-- `list_item(lines, regex, check)`: match the marker on the first line,
run the style check, and grab the following indented-or-blank lines. -/
def list_item (matchPfx : Str → Option Str) (check : Str → Bool) (lines : List Str) :
    Option (LItem × List Str) :=
  match lines with
  | [] => none
  | l0 :: rest =>
    match matchPfx l0 with
    | none => none
    | some p =>
      if check p then
        let g := grablines (fun l => indented l || blankline l) rest
        some (⟨p, l0 :: g.1⟩, g.2)
      else none

/-- `^[+*-] ` — the unordered list marker. -/
def umarkMatch (line : Str) : Option Str :=
  match line with
  | c :: d :: _ =>
    if d = ' ' ∧ (c = '+' ∨ c = '*' ∨ c = '-') then some [c, ' '] else none
  | _ => none

/-- The roman-numeral alternative of the ordered marker, with the regex
engine's backtracking: `romanTry line f` tries roman-part lengths `f` down
to 1 until `[).] ` follows.  A fuel value `f = k + 1` checks the length
`k + 1` candidate: punctuation at index `k + 1`, a space at `k + 2`. -/
def romanTry (line : Str) : Nat → Option Str
  | 0 => none
  | k + 1 =>
    match (line.drop (k + 1)).head? with
    | some p =>
      if (p = ')' ∨ p = '.') ∧ (line.drop (k + 2)).head? = some ' ' then
        some (line.take (k + 3))
      else romanTry line k
    | none => romanTry line k

/-- `^([0-9]+|[a-zA-Z]|[mclxivMCLXIV]+)[).] ` — the ordered list marker,
following the regex engine's ordered alternation.  The roman alternative
starts from the maximal greedy run (`romanTry` with the full run length; a
shorter candidate always fails, since the character after it is itself
roman and never `)` or `.`). -/
def omarkMatch (line : Str) : Option Str :=
  let digits := line.takeWhile Char.isDigit
  let isRoman : Char → Bool := fun c => "mclxivMCLXIV".toList.contains c
  if digits ≠ [] then
    match (line.drop digits.length).head? with
    | some p =>
      if (p = ')' ∨ p = '.') ∧ (line.drop (digits.length + 1)).head? = some ' ' then
        some (line.take (digits.length + 2))
      else none
    | none => none
  else
    match line with
    | c :: p :: ' ' :: _ =>
      if c.isAlpha ∧ (p = ')' ∨ p = '.') then some [c, p, ' ']
      else
        let r := line.takeWhile isRoman
        if r ≠ [] then romanTry line r.length else none
    | _ =>
      let r := line.takeWhile isRoman
      if r ≠ [] then romanTry line r.length else none

/-- `getstyle(prefix)`: the numbering class of the first marker character
followed by the end punctuation (`prefix.at(-2)`). -/
def getstyle (pfx : Str) : Str :=
  let endmarker := (pfx.drop (pfx.length - 2)).headD ' '
  let c := pfx.headD ' '
  let orderstyle : Char :=
    if c.isDigit then '1'
    else if "IVMXL".toList.contains c then 'I'
    else if "ivmxl".toList.contains c then 'i'
    else if "ABCDEFGHIJK".toList.contains c then 'A'
    else 'a'
  [orderstyle, endmarker]

/-- `checkmarker = (prefix) => !marker || prefix[0] == marker`. -/
def ucheck (marker : Option Char) : Str → Bool := fun p =>
  match marker with
  | none => true
  | some m => p.head? = some m

/-- `checkmarker = (prefix) => !style || getstyle(prefix) == style`. -/
def ocheck (sty : Option Str) : Str → Bool := fun p =>
  match sty with
  | none => true
  | some s => getstyle p = s

/-- The item-collection loop of `unordered_list.parse`: collect items while
the marker character is unchanged (`marker ||= item.prefix[0]`). -/
def collectU : Nat → Option Char → List Str → List LItem →
    List LItem × List Str × Option Char
  | 0, marker, lines, acc => (acc, lines, marker)
  | fuel + 1, marker, lines, acc =>
    match list_item umarkMatch (ucheck marker) lines with
    | none => (acc, lines, marker)
    | some (it, rest) => collectU fuel (marker <|> it.pfx.head?) rest (acc ++ [it])

/-- The item-collection loop of `ordered_list.parse`: collect items while
`getstyle` is unchanged (`style ||= getstyle(item.prefix)`). -/
def collectO : Nat → Option Str → List Str → List LItem →
    List LItem × List Str × Option Str
  | 0, sty, lines, acc => (acc, lines, sty)
  | fuel + 1, sty, lines, acc =>
    match list_item omarkMatch (ocheck sty) lines with
    | none => (acc, lines, sty)
    | some (it, rest) => collectO fuel (sty <|> some (getstyle it.pfx)) rest (acc ++ [it])

/-- The pop-and-unshift loop of `deblank` on the last item's lines. -/
def deblankLoop : Nat → List Str → List Str → List Str × List Str
  | 0, itl, lines => (itl, lines)
  | fuel + 1, itl, lines =>
    match itl.getLast? with
    | some l =>
      if blankline l then deblankLoop fuel itl.dropLast (l :: lines)
      else (itl, lines)
    | none => (itl, lines)

/-- `deblank(items, lines)`: with more than one item, move the last item's
trailing blank lines back onto the input. -/
def deblank (items : List LItem) (lines : List Str) : List LItem × List Str :=
  if items.length > 1 then
    match items.getLast? with
    | some lastIt =>
      let r := deblankLoop (lastIt.lines.length + 1) lastIt.lines lines
      (items.dropLast ++ [⟨lastIt.pfx, r.1⟩], r.2)
    | none => (items, lines)
  else (items, lines)

/-- The minimum-indentation fold of `dedent`: `len` starts at the marker
length and takes the minimum with each non-blank line's leading-space run;
a non-blank line with no leading space makes `line.match(/^ +/)[0]` a read
of `null`, a TypeError. -/
def dedentLen : Nat → List Str → Except JsErr Nat
  | len, [] => .ok len
  | len, l :: rest =>
    if blankline l then dedentLen len rest
    else
      let k := countLeadingSpaces l
      if k = 0 then .error (.typeErr "cannot read 0 of null")
      else dedentLen (min len k) rest

/-- `dedent` on one item: cut the marker off the first line, then strip up
to `len || 1` leading spaces (`RegExp('^ {0,len}')`) from every later line. -/
def dedentItem (it : LItem) : Except JsErr LItem :=
  match it.lines with
  | [] => .error (.typeErr "cannot read slice of undefined")
  | l0 :: rest =>
    match dedentLen it.pfx.length rest with
    | .error e => .error e
    | .ok len =>
      let len1 := if len = 0 then 1 else len
      .ok ⟨it.pfx, (l0.drop it.pfx.length) ::
        rest.map (fun l => l.drop (min (countLeadingSpaces l) len1))⟩

/-- `dedent(items)`. -/
def dedent (items : List LItem) : Except JsErr (List LItem) := items.mapM dedentItem

/-- `checkloose(items)`: if any item contains a blank line the list is loose
and every item not already ending in a blank line gets one appended. -/
def checkloose (items : List LItem) : List LItem :=
  let loose := items.any (fun it => it.lines.any (fun l => blankline l))
  if loose then
    items.map (fun it =>
      if it.lines.getLast? = some [] then it else ⟨it.pfx, it.lines ++ [[]]⟩)
  else items

/-- `items.map(item => item.lines); items.map(parse_blocks)` with the
document state threaded left to right. -/
def mapParseBlocks (cb : CB) : List (List Str) → DocSt →
    Except JsErr (List (List Node) × DocSt)
  | [], ds => .ok ([], ds)
  | ls :: rest, ds =>
    match cb.parse_blocks ls ds with
    | .error e => .error e
    | .ok (ns, ds1) =>
      match mapParseBlocks cb rest ds1 with
      | .error e => .error e
      | .ok (nss, ds2) => .ok (ns :: nss, ds2)

/-- The `ul` class attribute chosen by the list marker
(`{'*': 'star-list', '+': 'plus-list', '-': 'minus-list'}[marker]`). -/
def ulclassOf (c : Char) : Str :=
  if c = '*' then "star-list".toList
  else if c = '+' then "plus-list".toList
  else if c = '-' then "minus-list".toList
  else "undefined".toList

/-- The `unordered_list` block parser. -/
def unorderedParse : BParser := fun cb lines ds =>
  let col := collectU (lines.length + 1) none lines []
  match col.1 with
  | [] => .ok (none, lines, ds)
  | _ =>
    let d := deblank col.1 col.2.1
    match dedent d.1 with
    | .error e => .error e
    | .ok items2 =>
      let items3 := checkloose items2
      match mapParseBlocks cb (items3.map (fun it => it.lines)) ds with
      | .error e => .error e
      | .ok (chs, ds') =>
        let marker := col.2.2.getD ' '
        .ok (some (.el "ul" [("class", ulclassOf marker)]
          (some (chs.map (fun ch => Node.tag "li" ch))) none false none), d.2, ds')

/-- The `ordered_list` block parser. -/
def orderedParse : BParser := fun cb lines ds =>
  let col := collectO (lines.length + 1) none lines []
  match col.1 with
  | [] => .ok (none, lines, ds)
  | it0 :: _ =>
    let start := it0.pfx.dropLast.dropLast
    let d := deblank col.1 col.2.1
    match dedent d.1 with
    | .error e => .error e
    | .ok items2 =>
      let items3 := checkloose items2
      match mapParseBlocks cb (items3.map (fun it => it.lines)) ds with
      | .error e => .error e
      | .ok (chs, ds') =>
        let sty := col.2.2.getD []
        .ok (some (.el "ol" [("start", start), ("type", sty.dropLast)]
          (some (chs.map (fun ch => Node.tag "li" ch))) none false none), d.2, ds')

/-- The `horizontal_rule` block parser: `{name:'hr'}`, no children, no text. -/
def hrParse : BParser := fun _cb lines ds =>
  match lines with
  | [] => .error (.typeErr "cannot read startsWith of undefined")
  | l0 :: rest =>
    if strStarts l0 "***".toList ∨ strStarts l0 "---".toList ∨ strStarts l0 "___".toList then
      .ok (some (.el "hr" [] none none false none), rest, ds)
    else .ok (none, lines, ds)

/-- `^\[\^[a-zA-Z0-9]+\]: *` — the footnote-definition marker; returns the
matched text (including trailing spaces) and the label. -/
def fnoteMatch (line : Str) : Option (Str × Str) :=
  match line with
  | '[' :: '^' :: rest =>
    let label := rest.takeWhile Char.isAlphanum
    if label = [] then none
    else
      match rest.drop label.length with
      | ']' :: ':' :: tl =>
        let sp := tl.takeWhile (fun c => c = ' ')
        some ("[^".toList ++ label ++ "]:".toList ++ sp, label)
      | _ => none
  | _ => none

/-- The `footnote_def` block parser: store the dedented, list-itemised
definition lines under the label and yield `omit`. -/
def fnoteDefParse : BParser := fun _cb lines ds =>
  match lines with
  | [] => .error (.typeErr "cannot read match of undefined")
  | l0 :: rest =>
    match fnoteMatch l0 with
    | none => .ok (none, lines, ds)
    | some (pfx, label) =>
      let g := grablines (fun l => blankline l || indented l) rest
      let children := l0 :: g.1
      let c1 := children.map (fun c => c.drop (min (countLeadingSpaces c) pfx.length))
      let c2 := match c1 with
        | h :: t => (h.drop pfx.length) :: t
        | [] => []
      let c3 := c2.map (fun c => "   ".toList ++ c)
      let c4 := match c3 with
        | h :: t => ("1) ".toList ++ h.drop 3) :: t
        | [] => []
      .ok (some omitNode, g.2, { ds with fdefs := aupdate ds.fdefs label c4 })

/-- `^\[[A-Za-z0-9]+\]: *` — the href-definition marker. -/
def hrefMatch (line : Str) : Option (Str × Str) :=
  match line with
  | '[' :: rest =>
    let label := rest.takeWhile Char.isAlphanum
    if label = [] then none
    else
      match rest.drop label.length with
      | ']' :: ':' :: tl =>
        let sp := tl.takeWhile (fun c => c = ' ')
        some ("[".toList ++ label ++ "]:".toList ++ sp, label)
      | _ => none
  | _ => none

/-- The `href_def` block parser: store the rest of the line under the id and
yield `omit`. -/
def hrefDefParse : BParser := fun _cb lines ds =>
  match lines with
  | [] => .error (.typeErr "cannot read match of undefined")
  | l0 :: rest =>
    match hrefMatch l0 with
    | none => .ok (none, lines, ds)
    | some (pfx, label) =>
      .ok (some omitNode, rest, { ds with hdefs := aupdate ds.hdefs label (l0.drop pfx.length) })

/-- Substring containment (JS `line.indexOf(close_tag) != -1`). -/
def hasSub : Str → Str → Bool
  | s, sub =>
    if strStarts s sub then true
    else
      match s with
      | [] => false
      | _ :: t => hasSub t sub

/-- Case-insensitive prefix test (the `/i` flag). -/
def ciStarts (s pat : Str) : Bool :=
  (s.take pat.length).map Char.toLower = pat

/-- `^<(script|head|!--|!doctype)/i`: the matched text in original case. -/
def hgroupMatch (line : Str) : Option Str :=
  match line with
  | '<' :: r =>
    if ciStarts r "script".toList then some ('<' :: r.take 6)
    else if ciStarts r "head".toList then some ('<' :: r.take 4)
    else if ciStarts r "!--".toList then some ('<' :: r.take 3)
    else if ciStarts r "!doctype".toList then some ('<' :: r.take 8)
    else none
  | _ => none

/-- The `html_groups` block parser: pass all lines through (as raw strings)
up to and including the line holding the close tag.  When no line holds the
close tag every line is grabbed and `lines.shift()` pushes `undefined`,
which joins as an empty string; this is modelled by pushing `''`. -/
def htmlGroupsParse : BParser := fun _cb lines ds =>
  match lines with
  | [] => .error (.typeErr "cannot read match of undefined")
  | l0 :: _ =>
    match hgroupMatch l0 with
    | none => .ok (none, lines, ds)
    | some m =>
      let low := m.map Char.toLower
      let close : Str :=
        if low = "<!--".toList then "-->".toList
        else if low = "<!doctype".toList then ">".toList
        else "</".toList ++ low.drop 1 ++ ">".toList
      let g := grablines (fun l => !hasSub l close) lines
      match g.2 with
      | x :: r2 =>
        .ok (some (.el "verbatim" [] (some ((g.1 ++ [x]).map Node.nstr)) none false none), r2, ds)
      | [] =>
        .ok (some (.el "verbatim" [] (some ((g.1 ++ [[]]).map Node.nstr)) none false none), [], ds)

/-- `^<\/?[^>]*>$`: a lone tag filling the whole line. -/
def htagMatch (line : Str) : Bool :=
  match line with
  | '<' :: rest =>
    let core := match rest with
      | '/' :: r => r
      | r => r
    match core.getLast? with
    | some '>' => core.dropLast.all (fun c => c ≠ '>')
    | _ => false
  | _ => false

/-- The `html_tags` block parser: the line passes through as a raw string. -/
def htmlTagsParse : BParser := fun _cb lines ds =>
  match lines with
  | [] => .ok (none, lines, ds)
  | l0 :: rest =>
    if htagMatch l0 then
      .ok (some (.el "verbatim" [] (some [Node.nstr l0]) none false none), rest, ds)
    else .ok (none, lines, ds)

/-! ### The table parser -/

/-- What `table.row` returns: an alignment row (an array of alignment
strings, which has no `name`) or a `tr` node. -/
inductive RowRes where
  | align (als : List Str)
  | tr (n : Node)

/-- `line.split('|').slice(1, -1)`. -/
def splitPipes (line : Str) : List Str :=
  ((splitCh '|' line).drop 1).dropLast

/-- `^ *:?-+:? *$` — one alignment-marker cell. -/
def isAlignCell (c : Str) : Bool :=
  let s1 := c.dropWhile (fun x => x = ' ')
  let s2 := match s1 with
    | ':' :: r => r
    | r => r
  let d := s2.takeWhile (fun x => x = '-')
  let s3 := s2.drop d.length
  let s4 := match s3 with
    | ':' :: r => r
    | r => r
  !d.isEmpty && (s4.dropWhile (fun x => x = ' ')).isEmpty

/-- The alignment of one cell: `:-` at the left (`L`), `-:` at the right
(`R`); both is `center`, left only is `left`, right only is `right`,
neither is `''`. -/
def alignOf (c : Str) : Str :=
  let l := match c.dropWhile (fun x => x = ' ') with
    | ':' :: '-' :: _ => true
    | _ => false
  let r := match c.reverse.dropWhile (fun x => x = ' ') with
    | ':' :: '-' :: _ => true
    | _ => false
  if l && r then "center".toList
  else if l then "left".toList
  else if r then "right".toList
  else []

/-- `table.row(line, parse_inline, number)`. -/
def tableRowFn (cb : CB) (line : Option Str) (number : Nat) (ds : DocSt) :
    Option RowRes × DocSt :=
  match line with
  | none => (none, ds)
  | some l =>
    if strStarts l "|".toList then
      let cols := splitPipes l
      if number ≤ 2 ∧ cols.all (fun c => !c.isEmpty && isAlignCell c) then
        (some (.align (cols.map alignOf)), ds)
      else
        let r := cols.foldl
          (fun (acc : List Node × DocSt) c =>
            let pr := cb.parse_inline c acc.2
            (acc.1 ++ [Node.tag "td" pr.1], pr.2))
          ([], ds)
        (some (.tr (Node.tag "tr" r.1)), r.2)
    else (none, ds)

/-- The row-collection loop of `table.parse`: consume `|`-rows, recording
the data rows, the latest alignment row and its (1-based) position. -/
def tableLoop : Nat → CB → List Str → Nat → Option (List Str) → Option Nat →
    List Node → DocSt → (List Node × Option (List Str) × Option Nat × List Str × DocSt)
  | 0, _, lines, _, alignment, alignedrow, rows, ds => (rows, alignment, alignedrow, lines, ds)
  | fuel + 1, cb, lines, rowcount, alignment, alignedrow, rows, ds =>
    match tableRowFn cb lines.head? (rowcount + 1) ds with
    | (none, ds') => (rows, alignment, alignedrow, lines, ds')
    | (some r, ds') =>
      match r with
      | .align a =>
        tableLoop fuel cb (lines.drop 1) (rowcount + 1) (some a) (some (rowcount + 1)) rows ds'
      | .tr n =>
        tableLoop fuel cb (lines.drop 1) (rowcount + 1) alignment alignedrow (rows ++ [n]) ds'

/-- Replace a `tr` row's cell attributes with the column alignment styles
(`row.children[i].attributes = {style: 'text-align:' + alignment[i]}` for
each truthy alignment entry with a cell at that index). -/
def applyAlignRow (al : List Str) (row : Node) : Node :=
  match row with
  | .el n a (some ch) t i k =>
    .el n a (some (ch.mapIdx (fun j c =>
      if j < al.length ∧ (al.get? j).getD [] ≠ [] then
        match c with
        | .el cn _ cch cct ci ck =>
          .el cn [("style", "text-align:".toList ++ (al.get? j).getD [])] cch cct ci ck
        | other => other
      else c))) t i k
  | other => other

/-- Rename a row's cells from `td` to `th`. -/
def promoteTh (row : Node) : Node :=
  match row with
  | .el n a (some ch) t i k =>
    .el n a (some (ch.map (fun c =>
      match c with
      | .el _ ca cch cct ci ck => .el "th" ca cch cct ci ck
      | other => other))) t i k
  | other => other

/-- The `table` block parser.  NOTE: `alignment` is declared with no
initialiser; when no alignment row was consumed, `alignment.length` is a
property read on `undefined` and throws a TypeError.  A failed parse
(`rows.length == 0`) returns `false` with the consumed alignment rows NOT
restored. -/
def tableParse : BParser := fun cb lines ds =>
  let r := tableLoop (lines.length + 1) cb lines 0 none none [] ds
  let rows := r.1
  let alignment := r.2.1
  let alignedrow := r.2.2.1
  let lines' := r.2.2.2.1
  let ds' := r.2.2.2.2
  match rows with
  | [] => .ok (none, lines', ds')
  | row0 :: restRows =>
    match alignment with
    | none => .error (.typeErr "cannot read length of undefined")
    | some al =>
      if al.length > 0 then
        let rows1 := (row0 :: restRows).map (applyAlignRow al)
        let rows2 :=
          if alignedrow = some 2 then
            match rows1 with
            | h :: t => promoteTh h :: t
            | [] => []
          else rows1
        match rows2 with
        | h :: t =>
          .ok (some (Node.tag "table"
            [Node.tag "thead" [h], Node.tag "tbody" t]), lines', ds')
        | [] => .ok (none, lines', ds')
      else
        .ok (some (Node.tag "table" [Node.tag "tbody" (row0 :: restRows)]), lines', ds')

/-! ### The block engine -/

/-- The block parser registry in registration order. -/
def blockGrams : List BParser :=
  [headerParse, blockquoteParse, indentedParse, fencedParse, unorderedParse,
   orderedParse, hrParse, fnoteDefParse, hrefDefParse, htmlGroupsParse,
   htmlTagsParse, tableParse]

/-- Offer the lines to each block parser in registry order.  A declining
parser hands on the line array as it left it (the table parser may consume
alignment-only rows and still decline). -/
def tryBP : List BParser → CB → List Str → DocSt → BRes
  | [], _, lines, ds => .ok (none, lines, ds)
  | p :: rest, cb, lines, ds =>
    match p cb lines ds with
    | .error e => .error e
    | .ok (some n, l1, ds1) => .ok (some n, l1, ds1)
    | .ok (none, l1, ds1) => tryBP rest cb l1 ds1

/-- `push_text('textblock')`: inline-parse the joined text lines; the result
nodes are spliced directly into the output. -/
def flushTB (text : List Str) (ds : DocSt) : List Node × DocSt :=
  if text.isEmpty then ([], ds)
  else parseInlineStr (joinNL text) ds

/-- `push_text('p')` after the trailing blank has been put back: wrap the
inline parse of the joined text lines in a `p` node. -/
def flushP (text : List Str) (ds : DocSt) : List Node × DocSt :=
  let r := parseInlineStr (joinNL text) ds
  ([Node.tag "p" r.1], r.2)

/-- The `parse_blocks` loop.  `text` is the plain-text accumulator and `ast`
the output.  `fuel` bounds the chain of loop steps and nested engine
invocations; the top-level wrappers provide enough of it ( exhaustion
returns what has been built).  On `lines == []` after a parse failure the
source pushes `lines.shift()` — that is `undefined`, which later joins as
an empty string; it is modelled by pushing `''`. -/
def parse_blocksGo : Nat → List Str → List Str → List Node → DocSt →
    Except JsErr (List Node × DocSt)
  | 0, _, _, ast, ds => .ok (ast, ds)
  | fuel + 1, lines, text, ast, ds =>
    match lines with
    | [] =>
      let fl := flushTB text ds
      .ok (ast ++ fl.1, fl.2)
    | _ =>
      let cb : CB := ⟨fun ls ds1 => parse_blocksGo fuel ls [] [] ds1, parseInlineStr⟩
      match tryBP blockGrams cb lines ds with
      | .error e => .error e
      | .ok (some n, lines1, ds1) =>
        if n.nodeName = "omit" then
          parse_blocksGo fuel lines1 text ast ds1
        else
          let fl := flushTB text ds1
          parse_blocksGo fuel lines1 [] (ast ++ fl.1 ++ [n]) fl.2
      | .ok (none, lines1, ds1) =>
        match lines1 with
        | [] => parse_blocksGo fuel [] (text ++ [[]]) ast ds1
        | l0 :: restL =>
          if blankline l0 then
            if text.isEmpty then
              parse_blocksGo fuel restL text (ast ++ [Node.textN l0]) ds1
            else
              let fl := flushP text ds1
              parse_blocksGo fuel (l0 :: restL) [] (ast ++ fl.1) fl.2
          else
            parse_blocksGo fuel restL (text ++ [l0]) ast ds1

/-- A size measure of a line array, used to pick the engine fuel. -/
def docSizeOf (lines : List Str) : Nat :=
  lines.foldl (fun a l => a + l.length + 2) 0

/-- Generous fuel for a full `parse_blocks` run on the given lines. -/
def blockFuel (lines : List Str) : Nat := 8 * docSizeOf lines + 64

/-- `parse_blocks(lines)` as invoked from the top level or a postprocess
hook. -/
def parse_blocksTop (lines : List Str) (ds : DocSt) : Except JsErr (List Node × DocSt) :=
  parse_blocksGo (blockFuel lines) lines [] [] ds

/-! ## Deferred resolution (postprocessing) -/

/-- The alphanumeric property names a fresh object literal (`tonumbers =
{}`) inherits from `Object.prototype`.  `tonumbers[key]` is a truthy
function for these keys even when it was never assigned.  The remaining
prototype members (`__proto__`, `__defineGetter__`, ...) contain
underscores, which the footnote label pattern `[a-zA-Z0-9]+` excludes, so
they can never occur as citation keys. -/
def isProtoKey (k : Str) : Bool :=
  k == "constructor".toList || k == "hasOwnProperty".toList ||
  k == "isPrototypeOf".toList || k == "propertyIsEnumerable".toList ||
  k == "toLocaleString".toList || k == "toString".toList || k == "valueOf".toList

/-- The numbering loop of `footnote_def.postprocess`: walk the citation keys
in push order; a key for which `!tonumbers[cite.key]` is true is assigned
the next number (starting at 1).  Assigned numbers (all ≥ 1) are truthy, so
a repeated key is skipped — but so is a key that names an inherited
`Object.prototype` property, which is a truthy function on the fresh object
literal and therefore never numbered.  Returns the finished map (the own
properties) and the next unused number. -/
def tonumbersOf (cites : List Str) : List (Str × Nat) × Nat :=
  cites.foldl
    (fun (acc : List (Str × Nat) × Nat) k =>
      match alookup acc.1 k with
      | some _ => acc
      | none =>
        if isProtoKey k then acc
        else (acc.1 ++ [(k, acc.2)], acc.2 + 1))
    ([], 1)

/-- `'' + n`. -/
def natStr (n : Nat) : Str := (toString n).toList

/-- Rewrite one citation node the way the postprocess loop does through its
alias: `cite.attributes.href = '#footnote_' + key` and
`cite.children[0].text = '' + key`.  In the JS the loop walks `this.cites`;
every citation node in the tree built by the main parse is in that list and
its final number is `tonumbers[original key]`, so rewriting by key lookup
agrees with the aliased in-place updates.  A key absent from the map — a
prototype-shadowed label, never numbered — makes the JS write the
implementation-defined stringification of the inherited function into
`href` and the text; the model leaves such a citation unchanged, which
carries the same `children`/`text` shape either way. -/
def rewriteCiteOne (tn : List (Str × Nat)) (a : List (String × Str))
    (ch : Option (List Node)) (k : Str) : List (String × Str) × Option (List Node) × Str :=
  match alookup tn k with
  | none => (a, ch, k)
  | some num =>
    let a1 := attrUpdate a "href" ("#footnote_".toList ++ natStr num)
    let ch1 :=
      match ch with
      | some (.el cn ca cch _ ci ck :: crest) =>
        some (.el cn ca cch (some (natStr num)) ci ck :: crest)
      | other => other
    (a1, ch1, natStr num)

mutual

/-- The citation-rewriting walk over the tree (the key-carrying nodes are
exactly the citation anchors). -/
def rewriteCite (tn : List (Str × Nat)) : Node → Node
  | .el n a ch t i (some k) =>
    let ch1 :=
      match ch with
      | none => none
      | some l => some (rewriteCiteL tn l)
    let r := rewriteCiteOne tn a ch1 k
    .el n r.1 r.2.1 t i (some r.2.2)
  | .el n a ch t i none =>
    .el n a
      (match ch with
       | none => none
       | some l => some (rewriteCiteL tn l)) t i none
  | .nstr s => .nstr s
  | .ngroup g => .ngroup (rewriteCiteL tn g)

/-- `rewriteCite` over a child list. -/
def rewriteCiteL (tn : List (Str × Nat)) : List Node → List Node
  | [] => []
  | c :: cs => rewriteCite tn c :: rewriteCiteL tn cs

end

/-- `for (j = 1; j < i; j++) defs.push(...this.defs[tonumbers[j]])` — gather
the definition lines in citation-number order; a cited label with no stored
definition makes the spread a TypeError. -/
def gatherDefs (tn : List (Str × Nat)) (fdefs : List (Str × List Str)) :
    Nat → Nat → Except JsErr (List Str)
  | _, 0 => .ok []
  | j, k + 1 =>
    match tn.find? (fun p => p.2 = j) with
    | none => .ok []
    | some p =>
      match alookup fdefs p.1 with
      | none => .error (.typeErr "spread of undefined")
      | some ls =>
        match gatherDefs tn fdefs (j + 1) k with
        | .error e => .error e
        | .ok rest => .ok (ls ++ rest)

/-- Give the items of the footnote list their ids:
`defs[0].children[i].attributes = {id: 'footnote_' + (i+1)}` (the whole
attribute object is replaced). -/
def setFootnoteIds (defs0 : Node) : Except JsErr Node :=
  match defs0 with
  | .el n a (some ch) t i k =>
    .ok (.el n a (some (ch.mapIdx (fun idx c =>
      match c with
      | .el cn _ cch cct ci ck =>
        .el cn [("id", ("footnote_" ++ toString (idx + 1)).toList)] cch cct ci ck
      | other => other))) t i k)
  | _ => .error (.typeErr "cannot read length of undefined")

/-- `footnote_def.postprocess(ast, {parse_blocks})`: number the citations,
rewrite the anchors, parse the gathered definitions as one ordered list and
append it inside a `div.footnotes` wrapper (the JS pushes `children: [defs]`
with `defs` a node array — the `ngroup` child). -/
def footnotePost (cb : CB) (ast : List Node) (ds : DocSt) :
    Except JsErr (List Node × DocSt) :=
  let t := tonumbersOf ds.cites
  let tn := t.1
  let count := t.2
  let ast1 := rewriteCiteL tn ast
  match gatherDefs tn ds.fdefs 1 (count - 1) with
  | .error e => .error e
  | .ok defLines =>
    match cb.parse_blocks defLines ds with
    | .error e => .error e
    | .ok (defs, ds2) =>
      match defs with
      | [] => .ok (ast1, ds2)
      | d0 :: drest =>
        match setFootnoteIds d0 with
        | .error e => .error e
        | .ok d0' =>
          .ok (ast1 ++ [.el "div" [("class", "footnotes".toList)]
            (some [Node.ngroup (d0' :: drest)]) none false none], ds2)

/-- JS `this.defs[key] || fallback` on a string store: an absent definition
or an empty-string (falsy) definition falls back. -/
def jsOrStr (v : Option Str) (d : Str) : Str :=
  match v with
  | some s => if s = [] then d else s
  | none => d

/-- The attribute rewrite `href_def.postprocess` performs on an `a` node:
`node.attributes.href = this.defs[href] || href`, where `||` is the JS
truthiness fallback (an empty-string definition keeps the original href).
`if (node.attributes.href)` is itself a truthiness test: an `a` node with
an empty `href` falls into the `src` branch, which reads the absent `src`
property — the lookup key becomes the string `'undefined'`, and the JS
fallback value is the absent `src` itself (`undefined`); the model renders
that absent value as the string `'undefined'`. -/
def hrefLinkAttrs (hdefs : List (Str × Str)) (a : List (String × Str)) :
    List (String × Str) :=
  match attrLookup a "href" with
  | some h =>
    if h ≠ [] then attrUpdate a "href" (jsOrStr (alookup hdefs h) h)
    else attrUpdate a "src"
      ((alookup hdefs "undefined".toList).getD "undefined".toList)
  | none => attrUpdate a "src"
      ((alookup hdefs "undefined".toList).getD "undefined".toList)

/-- The attribute rewrite `href_def.postprocess` performs on an `img` node:
`node.attributes.src = this.defs[node.attributes.src] ||
node.attributes.src` with the JS truthiness fallback. -/
def hrefImgAttrs (hdefs : List (Str × Str)) (a : List (String × Str)) :
    List (String × Str) :=
  match attrLookup a "src" with
  | some s => attrUpdate a "src" (jsOrStr (alookup hdefs s) s)
  | none => attrUpdate a "src"
      ((alookup hdefs "undefined".toList).getD "undefined".toList)

mutual

/-- `href_def.postprocess`: resolve each recorded link/image node.  The JS
iterates `this.links` — exactly the `a` nodes (no `key`) and `img` nodes the
inline parsers created; rewriting them through the tree by shape is
observationally the same. -/
def rewriteHref (hdefs : List (Str × Str)) : Node → Node
  | .el n a ch t i k =>
    if n = "a" ∧ k = none then
      .el "a" (hrefLinkAttrs hdefs a)
        (match ch with
         | none => none
         | some l => some (rewriteHrefL hdefs l)) t i none
    else if n = "img" then
      .el "img" (hrefImgAttrs hdefs a)
        (match ch with
         | none => none
         | some l => some (rewriteHrefL hdefs l)) t i k
    else
      .el n a
        (match ch with
         | none => none
         | some l => some (rewriteHrefL hdefs l)) t i k
  | .nstr s => .nstr s
  | .ngroup g => .ngroup (rewriteHrefL hdefs g)

/-- `rewriteHref` over a child list. -/
def rewriteHrefL (hdefs : List (Str × Str)) : List Node → List Node
  | [] => []
  | c :: cs => rewriteHref hdefs c :: rewriteHrefL hdefs cs

end

/-! ## HTML printing -/

/-- `attributes(attr)`: render an attribute object as ` k="v" ...`.  Absent
attributes and an (unreachable at print time) present-but-empty attribute
object are both embedded as the empty list and print as `''`. -/
def attrsStr (l : List (String × Str)) : Str :=
  if l.isEmpty then []
  else ' ' :: List.intercalate " ".toList
    (l.map (fun p => p.1.toList ++ ('=' :: '"' :: (p.2 ++ ['"']))))

/-- `html_escape`: entity-escape `<`, `&`, `>`. -/
def htmlEscape (s : Str) : Str :=
  (s.map (fun c =>
    if c = '<' then "&lt;".toList
    else if c = '>' then "&gt;".toList
    else if c = '&' then "&amp;".toList
    else [c])).flatten

/-- `printers.text`: indent every line of the text; a non-inline text node
gets a final newline if it lacks one. -/
def pText (txt : Str) (isInline : Bool) (indent : Str) : Str :=
  let s := joinNL ((splitCh '\n' txt).map (fun ln => indent ++ ln))
  if s.getLast? ≠ some '\n' ∧ ¬ isInline then s ++ ['\n'] else s

/-- The text of a text-node child (`c.text`); `[]` for the unreachable
childless cases. -/
def nodeTxtOf : Node → Str
  | .el _ _ _ (some t) _ _ => t
  | _ => []

/-- `ast.children.map(c => html_escape(c.text))` joined with a separator. -/
def escTexts (cs : List Node) (sep : Str) : Str :=
  List.intercalate sep (cs.map (fun c => htmlEscape (nodeTxtOf c)))

/-- `printers.verbatim`: `ast.children.join('\n')` — the children are raw
strings; a node object would stringify as `[object Object]`. -/
def verbJoin (cs : List Node) : Str :=
  List.intercalate "\n".toList
    (cs.map (fun c =>
      match c with
      | .nstr s => s
      | _ => "[object Object]".toList))

mutual

/-- `inlined(ast, indent)` on a single node: custom printer if one exists,
else `<name attrs>` + inlined children + `</name>`. -/
def inlinedPr : Node → Str → Str
  | .el name attrs ch t i _, indent =>
    if name = "text" then pText (t.getD []) i indent
    else if name = "img" then
      '<' :: (name.toList ++ attrsStr attrs ++ ">".toList)
    else if name = "code" then
      indent ++ ('<' :: (name.toList ++ attrsStr attrs ++ ">".toList)) ++
        escTexts (ch.getD []) [] ++ "</code>".toList
    else
      indent ++ ('<' :: (name.toList ++ attrsStr attrs ++ ">".toList)) ++
        (match ch with
         | some l => inlinedPrL l
         | none => []) ++
        ("</".toList ++ name.toList ++ ">".toList)
  | .nstr s, indent => indent ++ s
  | .ngroup g, indent =>
    let out := inlinedPrL g
    if indent.isEmpty then out
    else joinNL ((splitCh '\n' out).map (fun ln => indent ++ ln))

/-- `inlined` over an array: concatenation with no indent (the caller
re-indents the joined output when needed). -/
def inlinedPrL : List Node → Str
  | [] => []
  | c :: cs => inlinedPr c [] ++ inlinedPrL cs

end

/-- `inlined(array, indent)`: concatenate, then indent every line when an
indent is given. -/
def inlinedArr (l : List Node) (indent : Str) : Str :=
  let out := inlinedPrL l
  if indent.isEmpty then out
  else joinNL ((splitCh '\n' out).map (fun ln => indent ++ ln))

/-- Is this one of `h1`..`h6`/`p` (they share one custom printer)? -/
def isHeadingOrP (name : String) : Bool :=
  name = "h1" ∨ name = "h2" ∨ name = "h3" ∨ name = "h4" ∨ name = "h5" ∨
  name = "h6" ∨ name = "p"

mutual

/-- `html_printer(ast, indent)` on a single element: arrays concatenate,
inline nodes print via `inlined` plus a newline, then the custom printers,
then the generic open/children/close rendering. -/
def htmlPr : Node → Str → Str
  | .ngroup g, indent => htmlPrL g indent
  | .nstr _, _ => []
  | .el name attrs ch t i k, indent =>
    if i then inlinedPr (.el name attrs ch t i k) indent ++ "\n".toList
    else if name = "text" then pText (t.getD []) i indent
    else if isHeadingOrP name then
      indent ++ ('<' :: (name.toList ++ attrsStr attrs ++ ">\n".toList)) ++
        (inlinedArr (ch.getD []) (indent ++ "    ".toList) ++ "\n".toList) ++
        (indent ++ "</".toList ++ name.toList ++ ">\n".toList)
    else if name = "codeblock" then
      indent ++ "<pre> <code".toList ++ attrsStr attrs ++ ">\n".toList ++
        (escTexts (ch.getD []) "\n".toList ++ "\n".toList) ++
        (indent ++ "</code> </pre>\n".toList)
    else if name = "hr" then indent ++ "<hr>\n".toList
    else if name = "verbatim" then verbJoin (ch.getD []) ++ "\n".toList
    else if name = "omit" then []
    else if name = "img" then
      '<' :: (name.toList ++ attrsStr attrs ++ ">".toList)
    else if name = "code" then
      indent ++ ('<' :: (name.toList ++ attrsStr attrs ++ ">".toList)) ++
        escTexts (ch.getD []) [] ++ "</code>".toList
    else
      match ch with
      | some l =>
        indent ++ ('<' :: (name.toList ++ attrsStr attrs ++ ">\n".toList)) ++
          htmlPrL l (indent ++ "    ".toList) ++
          (indent ++ "</".toList ++ name.toList ++ ">\n".toList)
      | none =>
        indent ++ ('<' :: (name.toList ++ attrsStr attrs ++ ">\n".toList)) ++
          (indent ++ "</".toList ++ name.toList ++ ">\n".toList)

/-- `html_printer` over an array. -/
def htmlPrL : List Node → Str → Str
  | [], _ => []
  | c :: cs, indent => htmlPr c indent ++ htmlPrL cs indent

end

/-- `html_printer(ast)` from the top. -/
def html_printer (ast : List Node) : Str := htmlPrL ast []

/-! ## `scratchmark` -/

/-- What a `scratchmark` call can evaluate to: the printer's output string,
the AST itself (when the printer returns it), or — when a config fence
populated the config and the printed result is a string — the config object
carrying the output under `body`. -/
inductive JsVal where
  | vStr (s : Str)
  | vAst (ast : List Node)
  | vObj (config : List (Str × CVal)) (body : Str)
deriving Repr

/-- A printer, as passed to `scratchmark`. -/
abbrev Printer := List Node → JsVal

/-- The default printer: `html_printer` (returns a string). -/
def htmlPrinterJs : Printer := fun ast => .vStr (html_printer ast)

/-- The identity printer `(tree) => tree` that the source documentation
offers for obtaining the syntax tree. -/
def astPrinterJs : Printer := fun ast => .vAst ast

/-- The `{parse_blocks, parse_inline}` record built from the real engine,
as handed to postprocess hooks (and usable to run any single parser). -/
def cbMain : CB := ⟨parse_blocksTop, parseInlineStr⟩

/-- The part of `scratchmark` that produces the final AST handed to the
printer: normalise the lines, run every parser's `init` (the fresh
`DocSt.init`; the core registers no preprocessors), run `parse_blocks`,
then the postprocess hooks (none of the built-in inline parsers or fence
handlers define one; `footnote_def` and then `href_def` follow in
registration order). -/
def pipelineAst (doc : Str) : Except JsErr (List Node × DocSt) :=
  let lines := normalizeLines doc
  match parse_blocksTop lines DocSt.init with
  | .error e => .error e
  | .ok (ast, ds1) =>
    match footnotePost cbMain ast ds1 with
    | .error e => .error e
    | .ok (ast2, ds2) => .ok (rewriteHrefL ds2.hdefs ast2, ds2)

/-- `scratchmark(lines, printer)`: run the pipeline, apply
`printer || html_printer` to the AST, and wrap the result with the config
object if the config is non-empty and the result is a string. -/
def scratchmark (doc : Str) (printer : Option Printer) : Except JsErr JsVal :=
  match pipelineAst doc with
  | .error e => .error e
  | .ok (ast3, ds2) =>
    let html := (printer.getD htmlPrinterJs) ast3
    if ds2.config.isEmpty then .ok html
    else
      match html with
      | .vStr s => .ok (.vObj ds2.config s)
      | other => .ok other

/-! ## Claims -/

/-- Claim C1 as stated: with no printer, `scratchmark` returns the AST
(the ordered array of nodes) itself. -/
def claimC1 : Prop :=
  ∀ doc : Str, scratchmark doc none = (pipelineAst doc).map (fun r => JsVal.vAst r.1)

/-- C1 counterexample: the claim is false — on the one-character document
`"a"` a printer-less `scratchmark` call returns the rendered string
`"a\n"` produced by the default `html_printer`, not the AST. -/
theorem c1_counterexample : ¬ claimC1 := by
  intro h
  have h1 := h "a".toList
  rw [show scratchmark "a".toList none = .ok (.vStr "a\n".toList) from rfl] at h1
  rw [show (pipelineAst "a".toList).map (fun r => JsVal.vAst r.1) =
        .ok (.vAst [Node.el "text" [] none (some "a".toList) true none]) from rfl] at h1
  simp at h1

/-- C1 (amended): with no renderer supplied, `scratchmark` behaves exactly
as if the default `html_printer` had been supplied (the result is its
rendered output, config-wrapped when applicable), and the AST itself is
obtained by passing the identity printer, which returns it as-is. -/
theorem c1_amended : ∀ doc : Str,
    scratchmark doc none = scratchmark doc (some htmlPrinterJs) ∧
    scratchmark doc (some astPrinterJs) =
      (pipelineAst doc).map (fun r => JsVal.vAst r.1) := by
  intro doc
  refine ⟨rfl, ?_⟩
  cases hp : pipelineAst doc with
  | error e => simp [scratchmark, hp, Except.map]
  | ok r =>
    obtain ⟨ast3, ds2⟩ := r
    simp only [scratchmark, hp, Except.map, astPrinterJs, Option.getD_some]
    split <;> rfl

/-- C2: the claim that parsing never throws is false — a document holding a
` ```config ` fence makes `fenced_codeblock.parse` evaluate the undeclared
identifier `children` as the fence handler's argument, and the whole parse
throws a ReferenceError instead of producing output. -/
theorem c2_config_fence_throws :
    scratchmark "```config\nx: 1\n```".toList none =
      .error (.refErr "children is not defined") := rfl

/-- C3: on a table with no alignment row the table parser does not build the
single-`tbody` table the claim describes: `alignment` was declared without
an initialiser, so `alignment.length` is a property read on `undefined` and
the parser throws a TypeError. -/
theorem c3_table_no_alignment_throws :
    tableParse cbMain ["| a |".toList] DocSt.init =
      .error (.typeErr "cannot read length of undefined") := rfl

/-- C4: a ` ```config ` fence never reaches the config handler: the parser
passes the undeclared identifier `children` (instead of the grabbed
`block`) to `fencehandler.config.parse`, so evaluating the fence throws a
ReferenceError and no config key is ever set. -/
theorem c4_config_fence_referenceerror :
    fencedParse cbMain ["```config".toList, "x: 1".toList, "```".toList] DocSt.init =
      .error (.refErr "children is not defined") := rfl


/-- The spec's dedent count: the minimum leading-space count among the
item's remaining non-blank lines, defaulting to 2 when there are none. -/
def specDedentLen (tail : List Str) : Nat :=
  match (tail.filter (fun l => !blankline l)).map countLeadingSpaces with
  | [] => 2
  | h :: t => t.foldl min h

/-- Claim C7 as stated: dedent strips the marker-length prefix from the
first line and `specDedentLen` leading spaces from every later line. -/
def claimC7 : Prop :=
  ∀ it : LItem, it.lines ≠ [] →
    (∀ l ∈ it.lines.tail, blankline l = true ∨ indented l = true) →
    dedentItem it = .ok ⟨it.pfx,
      (it.lines.headD []).drop it.pfx.length ::
        it.lines.tail.map (fun l => l.drop (specDedentLen it.lines.tail))⟩

/-- C7 counterexample: for the item `{prefix: "* ", lines: ["* a",
"      b"]}` the code strips only `min(markerLength, 6) = 2` spaces, giving
`"    b"`, while the claimed rule strips 6, giving `"b"`. -/
theorem c7_counterexample : ¬ claimC7 := by
  intro h
  have h1 := h ⟨"* ".toList, ["* a".toList, "      b".toList]⟩ (by decide) (by decide)
  exact absurd h1 (by decide)

/-- The dedent count the code uses: the minimum is also capped by the
marker length (`len` starts at `item.prefix.length`). -/
def amendedDedentLen (pfxLen : Nat) (tail : List Str) : Nat :=
  ((tail.filter (fun l => !blankline l)).map countLeadingSpaces).foldl min pfxLen

/-- `dedentLen` computes the capped minimum and cannot fail on
indented-or-blank tails. -/
theorem dedentLen_ok (tail : List Str) :
    ∀ n : Nat, (∀ l ∈ tail, blankline l = true ∨ indented l = true) →
    dedentLen n tail = .ok (amendedDedentLen n tail) := by
  induction tail with
  | nil => intro n _; rfl
  | cons l rest ih =>
    intro n hw
    have hl := hw l (by simp)
    by_cases hb : blankline l = true
    · have h1 : dedentLen n (l :: rest) = dedentLen n rest := by
        simp [dedentLen, hb]
      rw [h1, ih n (fun x hx => hw x (by simp [hx]))]
      simp [amendedDedentLen, List.filter_cons, hb]
    · have hi : indented l = true := by
        rcases hl with h | h
        · exact absurd h hb
        · exact h
      have hk : countLeadingSpaces l ≠ 0 := by
        cases l with
        | nil => simp [indented] at hi
        | cons c cs =>
          have hc : c = ' ' := by simpa [indented] using hi
          subst hc
          simp [countLeadingSpaces]
      have h1 : dedentLen n (l :: rest) = dedentLen (min n (countLeadingSpaces l)) rest := by
        simp [dedentLen, hb, hk]
      rw [h1, ih _ (fun x hx => hw x (by simp [hx]))]
      simp [amendedDedentLen, List.filter_cons, hb]

/-- A fold of `min` over positive numbers starting positive stays
positive. -/
theorem foldl_min_pos (l : List Nat) :
    ∀ n : Nat, 0 < n → (∀ x ∈ l, 0 < x) → 0 < l.foldl min n := by
  induction l with
  | nil => intro n hn _; simpa using hn
  | cons x xs ih =>
    intro n hn hl
    have hx := hl x (by simp)
    simpa [List.foldl_cons] using
      ih (min n x) (lt_min hn hx) (fun y hy => hl y (by simp [hy]))

/-- C7 (amended): dedent strips the marker-length prefix from the first
line and, from every later line, up to
`min(markerLength, minimum leading-space count of the non-blank tail lines)`
leading spaces (when there are no non-blank tail lines the count is the
marker length, which strips nothing from the remaining blank lines). -/
theorem c7_amended : ∀ it : LItem, it.lines ≠ [] → 0 < it.pfx.length →
    (∀ l ∈ it.lines.tail, blankline l = true ∨ indented l = true) →
    dedentItem it = .ok ⟨it.pfx,
      (it.lines.headD []).drop it.pfx.length ::
        it.lines.tail.map (fun l =>
          l.drop (min (countLeadingSpaces l)
            (amendedDedentLen it.pfx.length it.lines.tail)))⟩ := by
  intro it hne hpfx hw
  obtain ⟨pfx, ls⟩ := it
  cases ls with
  | nil => exact absurd rfl hne
  | cons l0 rest =>
    simp only [List.tail_cons] at hw ⊢
    have hlen : 0 < amendedDedentLen pfx.length rest := by
      apply foldl_min_pos _ _ (by simpa using hpfx)
      intro x hx
      simp only [List.mem_map, List.mem_filter] at hx
      obtain ⟨l, ⟨hl, hnb⟩, rfl⟩ := hx
      rcases hw l hl with h | h
      · rw [h] at hnb; simp at hnb
      · cases l with
        | nil => simp [indented] at h
        | cons c cs =>
          have hc : c = ' ' := by simpa [indented] using h
          subst hc
          simp [countLeadingSpaces]
    have hrw := dedentLen_ok rest pfx.length hw
    simp only [dedentItem, List.headD_cons, hrw]
    rw [if_neg (Nat.pos_iff_ne_zero.mp hlen)]

/-- C7 witness: the amended statement at the item
`{prefix: "* ", lines: ["* x", "  y"]}`. -/
theorem c7_witness :
    dedentItem ⟨"* ".toList, ["* x".toList, "  y".toList]⟩ =
      .ok ⟨"* ".toList, ["x".toList, "y".toList]⟩ := by
  have h := c7_amended ⟨"* ".toList, ["* x".toList, "  y".toList]⟩
    (by decide) (by decide) (by decide)
  rw [h]
  rfl

/-- The spec's wording of before-relative insertion: the new descriptor goes
immediately prior to the (first) descriptor named `b`. -/
def specInsertBefore (arr : List PDesc) (p : PDesc) (b : String) : List PDesc :=
  match arr.findIdx? (fun q => q.name = b) with
  | some i => arr.take i ++ p :: arr.drop i
  | none => arr ++ [p]

/-- Claim C8 as stated: no `before` appends; a `before` naming an existing
descriptor inserts immediately prior to it; a `before` naming no existing
descriptor fails with a no-such-parser error. -/
def claimC8 : Prop :=
  ∀ (c : ParserCollection) (p : PDesc) (before : Option String),
    (before = none → ∃ c2, c.add p before = .ok c2 ∧ c2.arr = c.arr ++ [p]) ∧
    (∀ b, before = some b → (∃ q ∈ c.arr, q.name = b) →
      ∃ c2, c.add p before = .ok c2 ∧ c2.arr = specInsertBefore c.arr p b) ∧
    (∀ b, before = some b → (∀ q ∈ c.arr, q.name ≠ b) →
      ∃ msg, c.add p before = .error msg)

/-- C8 counterexample: `add(p, '')` on an empty registry must fail by the
claim (no descriptor is named `''`), but `if (before)` is a truthiness test
and the empty string is falsy, so the descriptor is appended instead. -/
theorem c8_counterexample : ¬ claimC8 := by
  intro h
  obtain ⟨-, -, h3⟩ := h ⟨[], []⟩ ⟨"p"⟩ (some "")
  obtain ⟨msg, hmsg⟩ := h3 "" rfl (by simp)
  rw [show ParserCollection.add ⟨[], []⟩ ⟨"p"⟩ (some "") =
        .ok ⟨[⟨"p"⟩], [("p", ⟨"p"⟩)]⟩ from rfl] at hmsg
  cases hmsg

/-- C8 (amended): an absent OR empty `before` appends the descriptor; a
non-empty `before` naming an existing descriptor inserts immediately prior
to the first such descriptor; a non-empty `before` naming none throws
`'no parser called ' + before`. -/
theorem c8_amended : ∀ (c : ParserCollection) (p : PDesc) (before : Option String),
    ((before = none ∨ before = some "") →
      ∃ c2, c.add p before = .ok c2 ∧ c2.arr = c.arr ++ [p]) ∧
    (∀ b, before = some b → b ≠ "" → (∃ q ∈ c.arr, q.name = b) →
      ∃ c2, c.add p before = .ok c2 ∧ c2.arr = specInsertBefore c.arr p b) ∧
    (∀ b, before = some b → b ≠ "" → (∀ q ∈ c.arr, q.name ≠ b) →
      c.add p before = .error ("no parser called " ++ b)) := by
  intro c p before
  refine ⟨?_, ?_, ?_⟩
  · rintro (rfl | rfl)
    · exact ⟨_, rfl, rfl⟩
    · refine ⟨⟨c.arr ++ [p],
        (if (c.byname.find? (fun q => q.1 = p.name)).isSome then
          c.byname.map (fun q => if q.1 = p.name then (p.name, p) else q)
        else c.byname ++ [(p.name, p)])⟩, ?_, rfl⟩
      simp [ParserCollection.add]
  · intro b hb hne hex
    subst hb
    cases hf : c.arr.findIdx? (fun q => q.name = b) with
    | none =>
      exfalso
      obtain ⟨q, hq, hqn⟩ := hex
      have h0 := List.findIdx?_eq_none_iff.mp hf q hq
      simp [hqn] at h0
    | some i =>
      refine ⟨⟨c.arr.take i ++ p :: c.arr.drop i,
        (if (c.byname.find? (fun q => q.1 = p.name)).isSome then
          c.byname.map (fun q => if q.1 = p.name then (p.name, p) else q)
        else c.byname ++ [(p.name, p)])⟩, ?_, ?_⟩
      · simp [ParserCollection.add, hne, hf]
      · simp [specInsertBefore, hf]
  · intro b hb hne hall
    subst hb
    have hf : c.arr.findIdx? (fun q => q.name = b) = none := by
      rw [List.findIdx?_eq_none_iff]
      intro q hq
      simp [hall q hq]
    simp [ParserCollection.add, hne, hf]

/-- C8 witness: insertion before `"b"` in the registry `[a, b]`. -/
theorem c8_witness :
    ∃ c2, ParserCollection.add ⟨[⟨"a"⟩, ⟨"b"⟩], [("a", ⟨"a"⟩), ("b", ⟨"b"⟩)]⟩ ⟨"x"⟩
        (some "b") = .ok c2 ∧
      c2.arr = specInsertBefore [⟨"a"⟩, ⟨"b"⟩] ⟨"x"⟩ "b" :=
  (c8_amended ⟨[⟨"a"⟩, ⟨"b"⟩], [("a", ⟨"a"⟩), ("b", ⟨"b"⟩)]⟩ ⟨"x"⟩ (some "b")).2.1
    "b" rfl (by decide) ⟨⟨"b"⟩, by simp, rfl⟩

/-- A successful unordered-marker match exposes the marker character. -/
theorem umark_shape (l p : Str) (h : umarkMatch l = some p) :
    ∃ c, l.head? = some c ∧ (c = '+' ∨ c = '*' ∨ c = '-') ∧ p = [c, ' '] := by
  cases l with
  | nil => cases h
  | cons c rest =>
    cases rest with
    | nil => cases h
    | cons d r =>
      by_cases hcond : d = ' ' ∧ (c = '+' ∨ c = '*' ∨ c = '-')
      · refine ⟨c, rfl, hcond.2, ?_⟩
        have h1 : umarkMatch (c :: d :: r) = some [c, ' '] := by
          simp [umarkMatch, hcond]
        rw [h1] at h
        injection h with h2
        exact h2.symm
      · have h1 : umarkMatch (c :: d :: r) = none := by
          simp only [umarkMatch, if_neg hcond]
        rw [h1] at h
        cases h

/-- Once the marker is fixed, the collection loop never changes it. -/
theorem collectU_some_marker :
    ∀ (fuel : Nat) (lines : List Str) (acc : List LItem) (c : Char),
      (collectU fuel (some c) lines acc).2.2 = some c := by
  intro fuel
  induction fuel with
  | zero => intro lines acc c; rfl
  | succ f ih =>
    intro lines acc c
    rw [collectU]
    cases hli : list_item umarkMatch (ucheck (some c)) lines with
    | none => rfl
    | some pr => exact ih pr.2 (acc ++ [pr.1]) c

/-- A non-empty unordered collection starts at a marker line and fixes the
marker to its first character. -/
theorem collectU_start :
    ∀ (lines : List Str) (fuel : Nat) (items : List LItem) (r : List Str) (m : Option Char),
      collectU (fuel + 1) none lines [] = (items, r, m) → items ≠ [] →
      ∃ c, (lines.headD []).head? = some c ∧ (c = '+' ∨ c = '*' ∨ c = '-') ∧
        m = some c := by
  intro lines fuel items r m hcol hne
  rw [collectU] at hcol
  cases lines with
  | nil =>
    rw [show list_item umarkMatch (ucheck none) [] = none from rfl] at hcol
    injection hcol with h1 _
    exact absurd h1.symm hne
  | cons l0 rest0 =>
    cases hum : umarkMatch l0 with
    | none =>
      have hli : list_item umarkMatch (ucheck none) (l0 :: rest0) = none := by
        simp [list_item, hum]
      rw [hli] at hcol
      injection hcol with h1 _
      exact absurd h1.symm hne
    | some p =>
      obtain ⟨c, hhead, hcls, hp⟩ := umark_shape l0 p hum
      subst hp
      have hli : list_item umarkMatch (ucheck none) (l0 :: rest0) =
          some (⟨[c, ' '], l0 :: (grablines (fun l => indented l || blankline l) rest0).1⟩,
            (grablines (fun l => indented l || blankline l) rest0).2) := by
        simp [list_item, hum, ucheck]
      have hcol2 : collectU fuel (some c)
          ((grablines (fun l => indented l || blankline l) rest0).2)
          [⟨[c, ' '], l0 :: (grablines (fun l => indented l || blankline l) rest0).1⟩] =
          (items, r, m) := by
        rw [← hcol, hli]
        rfl
      have h2 := collectU_some_marker fuel
        ((grablines (fun l => indented l || blankline l) rest0).2)
        [⟨[c, ' '], l0 :: (grablines (fun l => indented l || blankline l) rest0).1⟩] c
      rw [hcol2] at h2
      exact ⟨c, by simpa using hhead, hcls, h2⟩

/-- C10: every `ul` the unordered-list parser returns carries the class
attribute selected from its marker character by
`{'*':'star-list', '+':'plus-list', '-':'minus-list'}`. -/
theorem c10_ul_class :
    ∀ (cb : CB) (lines : List Str) (ds : DocSt) (n : Node) (rest : List Str) (ds2 : DocSt),
      unorderedParse cb lines ds = .ok (some n, rest, ds2) →
      ∃ c ch, (c = '+' ∨ c = '*' ∨ c = '-') ∧ (lines.headD []).head? = some c ∧
        n = .el "ul" [("class", ulclassOf c)] (some ch) none false none := by
  intro cb lines ds n rest ds2 h
  unfold unorderedParse at h
  rcases hcol : collectU (lines.length + 1) none lines [] with ⟨items, r1, m⟩
  rw [hcol] at h
  cases items with
  | nil => simp at h
  | cons it its =>
    obtain ⟨c, hhead, hcls, hm⟩ :=
      collectU_start lines lines.length (it :: its) r1 m hcol (by simp)
    subst hm
    dsimp only [] at h
    cases hd : dedent (deblank (it :: its) r1).1 with
    | error e =>
      rw [hd] at h
      simp at h
    | ok items2 =>
      rw [hd] at h
      dsimp only [] at h
      cases hmp : mapParseBlocks cb ((checkloose items2).map (fun x => x.lines)) ds with
      | error e =>
        rw [hmp] at h
        simp at h
      | ok pr =>
        obtain ⟨chs, ds3⟩ := pr
        rw [hmp] at h
        dsimp only [] at h
        simp only [Except.ok.injEq, Prod.mk.injEq, Option.some.injEq, Option.getD_some] at h
        refine ⟨c, chs.map (fun ch => Node.tag "li" ch), hcls, hhead, ?_⟩
        exact h.1.symm

/-- C10 witness: the parser on `["* a"]` produces a `ul` classed
`star-list`. -/
theorem c10_witness :
    ∃ c ch, (c = '+' ∨ c = '*' ∨ c = '-') ∧
      (((["* a".toList] : List Str).headD []).head? = some c) ∧
      Node.el "ul" [("class", "star-list".toList)]
        (some [Node.tag "li" [Node.el "text" [] none (some "a".toList) true none]])
        none false none =
      .el "ul" [("class", ulclassOf c)] (some ch) none false none :=
  c10_ul_class cbMain ["* a".toList] DocSt.init
    (Node.el "ul" [("class", "star-list".toList)]
      (some [Node.tag "li" [Node.el "text" [] none (some "a".toList) true none]])
      none false none)
    [] DocSt.init rfl

/-- A single unordered item with non-blank content `sa` parses to a
one-item `ul` classed by its marker; the item content is block-parsed. -/
theorem unorderedParse_single (cb : CB) (ds : DocSt) (c : Char) (sa : Str)
    (hc : c = '*' ∨ c = '+' ∨ c = '-') (hsa : sa ≠ []) :
    unorderedParse cb [c :: ' ' :: sa] ds =
      (cb.parse_blocks [sa] ds).map (fun r =>
        (some (.el "ul" [("class", ulclassOf c)] (some [Node.tag "li" r.1]) none false none),
         ([] : List Str), r.2)) := by
  have humark : umarkMatch (c :: ' ' :: sa) = some [c, ' '] := by
    rcases hc with rfl | rfl | rfl <;> simp [umarkMatch]
  have hblanksa : blankline sa = false := by simp [blankline, hsa]
  have hsa2 : ¬ (([] : Str) = sa) := Ne.symm hsa
  have hli1 : list_item umarkMatch (ucheck none) [c :: ' ' :: sa] =
      some (⟨[c, ' '], [c :: ' ' :: sa]⟩, []) := by
    simp [list_item, humark, ucheck, grablines]
  have hcol : collectU 2 none [c :: ' ' :: sa] [] =
      ([⟨[c, ' '], [c :: ' ' :: sa]⟩], [], some c) := by
    have h1 : collectU 2 none [c :: ' ' :: sa] [] =
        collectU 1 (some c) [] [⟨[c, ' '], [c :: ' ' :: sa]⟩] := by
      rw [collectU, hli1]
      rfl
    rw [h1]
    rfl
  have hlen : ([c :: ' ' :: sa] : List Str).length + 1 = 2 := rfl
  cases hpb : cb.parse_blocks [sa] ds with
  | error e =>
    simp [unorderedParse, hlen, hcol, deblank, dedent, List.mapM, List.mapM.loop,
      dedentItem, dedentLen, checkloose, hblanksa, hsa2, mapParseBlocks, hpb,
      Except.map]
  | ok r =>
    obtain ⟨ns, ds1⟩ := r
    simp [unorderedParse, hlen, hcol, deblank, dedent, List.mapM, List.mapM.loop,
      dedentItem, dedentLen, checkloose, hblanksa, hsa2, mapParseBlocks, hpb,
      Except.map, Node.tag]

/-- Two adjacent unordered items with different marker characters: the parse
consumes only the first item (one-item `ul` in the first marker's style)
and leaves the second item's line on the input. -/
theorem unorderedParse_pair (cb : CB) (ds : DocSt) (c1 c2 : Char) (sa sb : Str)
    (hc1 : c1 = '*' ∨ c1 = '+' ∨ c1 = '-') (hc2 : c2 = '*' ∨ c2 = '+' ∨ c2 = '-')
    (hne : c1 ≠ c2) (hsa : sa ≠ []) :
    unorderedParse cb [c1 :: ' ' :: sa, c2 :: ' ' :: sb] ds =
      (cb.parse_blocks [sa] ds).map (fun r =>
        (some (.el "ul" [("class", ulclassOf c1)] (some [Node.tag "li" r.1]) none false none),
         [c2 :: ' ' :: sb], r.2)) := by
  have humark1 : umarkMatch (c1 :: ' ' :: sa) = some [c1, ' '] := by
    rcases hc1 with rfl | rfl | rfl <;> simp [umarkMatch]
  have humark2 : umarkMatch (c2 :: ' ' :: sb) = some [c2, ' '] := by
    rcases hc2 with rfl | rfl | rfl <;> simp [umarkMatch]
  have hind2 : indented (c2 :: ' ' :: sb) = false := by
    rcases hc2 with rfl | rfl | rfl <;> simp [indented]
  have hbl2 : blankline (c2 :: ' ' :: sb) = false := by simp [blankline]
  have hblanksa : blankline sa = false := by simp [blankline, hsa]
  have hsa2 : ¬ (([] : Str) = sa) := Ne.symm hsa
  have hne2 : ¬ (c2 = c1) := fun h => hne h.symm
  have hli1 : list_item umarkMatch (ucheck none) [c1 :: ' ' :: sa, c2 :: ' ' :: sb] =
      some (⟨[c1, ' '], [c1 :: ' ' :: sa]⟩, [c2 :: ' ' :: sb]) := by
    simp [list_item, humark1, ucheck, grablines, hind2, hbl2]
  have hli2 : list_item umarkMatch (ucheck (some c1)) [c2 :: ' ' :: sb] = none := by
    simp [list_item, humark2, ucheck, hne2]
  have hcol : collectU 3 none [c1 :: ' ' :: sa, c2 :: ' ' :: sb] [] =
      ([⟨[c1, ' '], [c1 :: ' ' :: sa]⟩], [c2 :: ' ' :: sb], some c1) := by
    have h1 : collectU 3 none [c1 :: ' ' :: sa, c2 :: ' ' :: sb] [] =
        collectU 2 (some c1) [c2 :: ' ' :: sb] [⟨[c1, ' '], [c1 :: ' ' :: sa]⟩] := by
      rw [collectU, hli1]
      rfl
    rw [h1, collectU, hli2]
  have hlen : ([c1 :: ' ' :: sa, c2 :: ' ' :: sb] : List Str).length + 1 = 3 := rfl
  cases hpb : cb.parse_blocks [sa] ds with
  | error e =>
    simp [unorderedParse, hlen, hcol, deblank, dedent, List.mapM, List.mapM.loop,
      dedentItem, dedentLen, checkloose, hblanksa, hsa2, mapParseBlocks, hpb,
      Except.map]
  | ok r =>
    obtain ⟨ns, ds1⟩ := r
    simp [unorderedParse, hlen, hcol, deblank, dedent, List.mapM, List.mapM.loop,
      dedentItem, dedentLen, checkloose, hblanksa, hsa2, mapParseBlocks, hpb,
      Except.map, Node.tag]

/-- An ordered-marker line is neither indented nor blank (the marker starts
with a digit, letter or roman character). -/
theorem omark_not_indented (l p : Str) (h : omarkMatch l = some p) :
    indented l = false ∧ blankline l = false := by
  cases l with
  | nil => simp [omarkMatch] at h
  | cons x xs =>
    refine ⟨?_, by simp [blankline]⟩
    by_cases hx : x = ' '
    · subst hx
      exfalso
      have hnone : omarkMatch (' ' :: xs) = none := by
        unfold omarkMatch
        rw [show (' ' :: xs).takeWhile Char.isDigit = [] from by simp]
        rw [if_neg (by simp)]
        split
        · rename_i c p2 tail heq
          injection heq with h1 h2
          subst h1
          rw [if_neg (by simp)]
          rw [show (' ' :: xs).takeWhile
              (fun c => "mclxivMCLXIV".toList.contains c) = [] from by simp]
          simp
        · rw [show (' ' :: xs).takeWhile
              (fun c => "mclxivMCLXIV".toList.contains c) = [] from by simp]
          simp
      rw [hnone] at h
      cases h
    · simp [indented, hx]

/-- A single ordered item with non-blank content `ta` parses to a one-item
`ol` carrying the literal `start` numeral and the style's `type`. -/
theorem orderedParse_single (cb : CB) (ds : DocSt) (p ta : Str)
    (hp : omarkMatch (p ++ ta) = some p) (hta : ta ≠ []) :
    orderedParse cb [p ++ ta] ds =
      (cb.parse_blocks [ta] ds).map (fun r =>
        (some (.el "ol" [("start", p.dropLast.dropLast), ("type", (getstyle p).dropLast)]
          (some [Node.tag "li" r.1]) none false none), ([] : List Str), r.2)) := by
  have hblankta : blankline ta = false := by simp [blankline, hta]
  have hta2 : ¬ (([] : Str) = ta) := Ne.symm hta
  have hli1 : list_item omarkMatch (ocheck none) [p ++ ta] = some (⟨p, [p ++ ta]⟩, []) := by
    simp [list_item, hp, ocheck, grablines]
  have hcol : collectO 2 none [p ++ ta] [] = ([⟨p, [p ++ ta]⟩], [], some (getstyle p)) := by
    have h1 : collectO 2 none [p ++ ta] [] =
        collectO 1 (some (getstyle p)) [] [⟨p, [p ++ ta]⟩] := by
      rw [collectO, hli1]
      rfl
    rw [h1]
    rfl
  have hded : dedentItem ⟨p, [p ++ ta]⟩ = .ok ⟨p, [ta]⟩ := by
    simp [dedentItem, dedentLen, List.drop_left]
  have hlen : ([p ++ ta] : List Str).length + 1 = 2 := rfl
  cases hpb : cb.parse_blocks [ta] ds with
  | error e =>
    simp [orderedParse, hlen, hcol, deblank, dedent, List.mapM, List.mapM.loop,
      hded, checkloose, hblankta, hta2, mapParseBlocks, hpb, Except.map]
  | ok r =>
    obtain ⟨ns, ds1⟩ := r
    simp [orderedParse, hlen, hcol, deblank, dedent, List.mapM, List.mapM.loop,
      hded, checkloose, hblankta, hta2, mapParseBlocks, hpb, Except.map, Node.tag]

/-- Two adjacent ordered items whose markers have different styles: the
parse consumes only the first item (one-item `ol` in the first marker's
style) and leaves the second item's line on the input. -/
theorem orderedParse_pair (cb : CB) (ds : DocSt) (p1 p2 ta tb : Str)
    (hp1 : omarkMatch (p1 ++ ta) = some p1) (hp2 : omarkMatch (p2 ++ tb) = some p2)
    (hsty : getstyle p1 ≠ getstyle p2) (hta : ta ≠ []) :
    orderedParse cb [p1 ++ ta, p2 ++ tb] ds =
      (cb.parse_blocks [ta] ds).map (fun r =>
        (some (.el "ol" [("start", p1.dropLast.dropLast), ("type", (getstyle p1).dropLast)]
          (some [Node.tag "li" r.1]) none false none), [p2 ++ tb], r.2)) := by
  have hblankta : blankline ta = false := by simp [blankline, hta]
  have hta2 : ¬ (([] : Str) = ta) := Ne.symm hta
  have hsty2 : ¬ (getstyle p2 = getstyle p1) := fun h => hsty h.symm
  obtain ⟨hind2, hbl2⟩ := omark_not_indented (p2 ++ tb) p2 hp2
  have hli1 : list_item omarkMatch (ocheck none) [p1 ++ ta, p2 ++ tb] =
      some (⟨p1, [p1 ++ ta]⟩, [p2 ++ tb]) := by
    simp [list_item, hp1, ocheck, grablines, hind2, hbl2]
  have hli2 : list_item omarkMatch (ocheck (some (getstyle p1))) [p2 ++ tb] = none := by
    simp [list_item, hp2, ocheck, hsty2]
  have hcol : collectO 3 none [p1 ++ ta, p2 ++ tb] [] =
      ([⟨p1, [p1 ++ ta]⟩], [p2 ++ tb], some (getstyle p1)) := by
    have h1 : collectO 3 none [p1 ++ ta, p2 ++ tb] [] =
        collectO 2 (some (getstyle p1)) [p2 ++ tb] [⟨p1, [p1 ++ ta]⟩] := by
      rw [collectO, hli1]
      rfl
    rw [h1, collectO, hli2]
  have hded : dedentItem ⟨p1, [p1 ++ ta]⟩ = .ok ⟨p1, [ta]⟩ := by
    simp [dedentItem, dedentLen, List.drop_left]
  have hlen : ([p1 ++ ta, p2 ++ tb] : List Str).length + 1 = 3 := rfl
  cases hpb : cb.parse_blocks [ta] ds with
  | error e =>
    simp [orderedParse, hlen, hcol, deblank, dedent, List.mapM, List.mapM.loop,
      hded, checkloose, hblankta, hta2, mapParseBlocks, hpb, Except.map]
  | ok r =>
    obtain ⟨ns, ds1⟩ := r
    simp [orderedParse, hlen, hcol, deblank, dedent, List.mapM, List.mapM.loop,
      hded, checkloose, hblankta, hta2, mapParseBlocks, hpb, Except.map, Node.tag]

/-- C9: adjacent list items whose markers have different style classes are
not merged: the list parser closes the first list at the style change,
leaves the differently-styled item on the input, and the next invocation
parses it as its own list.  Stated for both unordered lists (style = the
marker character) and ordered lists (style = numbering class plus closing
punctuation). -/
theorem c9_list_style_change :
    ∀ (cb : CB) (ds : DocSt) (c1 c2 : Char) (sa sb p1 p2 ta tb : Str),
      ((c1 = '*' ∨ c1 = '+' ∨ c1 = '-') → (c2 = '*' ∨ c2 = '+' ∨ c2 = '-') →
        c1 ≠ c2 → sa ≠ [] → sb ≠ [] →
        (unorderedParse cb [c1 :: ' ' :: sa, c2 :: ' ' :: sb] ds =
          (cb.parse_blocks [sa] ds).map (fun r =>
            (some (.el "ul" [("class", ulclassOf c1)] (some [Node.tag "li" r.1]) none false none),
             [c2 :: ' ' :: sb], r.2)) ∧
         unorderedParse cb [c2 :: ' ' :: sb] ds =
          (cb.parse_blocks [sb] ds).map (fun r =>
            (some (.el "ul" [("class", ulclassOf c2)] (some [Node.tag "li" r.1]) none false none),
             ([] : List Str), r.2)))) ∧
      (omarkMatch (p1 ++ ta) = some p1 → omarkMatch (p2 ++ tb) = some p2 →
        getstyle p1 ≠ getstyle p2 → ta ≠ [] → tb ≠ [] →
        (orderedParse cb [p1 ++ ta, p2 ++ tb] ds =
          (cb.parse_blocks [ta] ds).map (fun r =>
            (some (.el "ol" [("start", p1.dropLast.dropLast), ("type", (getstyle p1).dropLast)]
              (some [Node.tag "li" r.1]) none false none), [p2 ++ tb], r.2)) ∧
         orderedParse cb [p2 ++ tb] ds =
          (cb.parse_blocks [tb] ds).map (fun r =>
            (some (.el "ol" [("start", p2.dropLast.dropLast), ("type", (getstyle p2).dropLast)]
              (some [Node.tag "li" r.1]) none false none), ([] : List Str), r.2)))) := by
  intro cb ds c1 c2 sa sb p1 p2 ta tb
  constructor
  · intro hc1 hc2 hne hsa hsb
    exact ⟨unorderedParse_pair cb ds c1 c2 sa sb hc1 hc2 hne hsa,
           unorderedParse_single cb ds c2 sb hc2 hsb⟩
  · intro hp1 hp2 hsty hta htb
    exact ⟨orderedParse_pair cb ds p1 p2 ta tb hp1 hp2 hsty hta,
           orderedParse_single cb ds p2 tb hp2 htb⟩

/-- C9 witness: `* a` then `- b`, and the roman-marker item `ii) x` then
`a) y`, against the real engine callbacks. -/
theorem c9_witness :
    (unorderedParse cbMain ["* a".toList, "- b".toList] DocSt.init =
      (cbMain.parse_blocks ["a".toList] DocSt.init).map (fun r =>
        (some (.el "ul" [("class", ulclassOf '*')] (some [Node.tag "li" r.1]) none false none),
         ["- b".toList], r.2)) ∧
     unorderedParse cbMain ["- b".toList] DocSt.init =
      (cbMain.parse_blocks ["b".toList] DocSt.init).map (fun r =>
        (some (.el "ul" [("class", ulclassOf '-')] (some [Node.tag "li" r.1]) none false none),
         ([] : List Str), r.2))) ∧
    (orderedParse cbMain ["ii) x".toList, "a) y".toList] DocSt.init =
      (cbMain.parse_blocks ["x".toList] DocSt.init).map (fun r =>
        (some (.el "ol" [("start", ("ii) ".toList).dropLast.dropLast),
          ("type", (getstyle "ii) ".toList).dropLast)]
          (some [Node.tag "li" r.1]) none false none), ["a) y".toList], r.2)) ∧
     orderedParse cbMain ["a) y".toList] DocSt.init =
      (cbMain.parse_blocks ["y".toList] DocSt.init).map (fun r =>
        (some (.el "ol" [("start", ("a) ".toList).dropLast.dropLast),
          ("type", (getstyle "a) ".toList).dropLast)]
          (some [Node.tag "li" r.1]) none false none), ([] : List Str), r.2))) := by
  have h := c9_list_style_change cbMain DocSt.init '*' '-' "a".toList "b".toList
    "ii) ".toList "a) ".toList "x".toList "y".toList
  exact ⟨h.1 (Or.inl rfl) (Or.inr (Or.inr rfl)) (by decide) (by decide) (by decide),
         h.2 rfl rfl (by decide) (by decide) (by decide)⟩

/-! ## Claim C5: the children-or-text node invariant -/

/-- The claim's invariant: every node (recursively) carries a `children`
field or a `text` field. -/
inductive ClaimOkNode : Node → Prop where
  | el : ∀ (name : String) (attrs : List (String × Str)) (ch : Option (List Node))
      (t : Option Str) (inl : Bool) (key : Option Str),
      (ch.isSome = true ∨ t.isSome = true) →
      (∀ c ∈ ch.getD [], ClaimOkNode c) →
      ClaimOkNode (.el name attrs ch t inl key)
  | nstr : ∀ s, ClaimOkNode (.nstr s)
  | ngroup : ∀ g, (∀ c ∈ g, ClaimOkNode c) → ClaimOkNode (.ngroup g)

/-- Claim C5 as stated, over the final AST of the pipeline. -/
def claimC5 : Prop :=
  ∀ (doc : Str) (ast : List Node) (ds : DocSt),
    pipelineAst doc = .ok (ast, ds) → ∀ n ∈ ast, ClaimOkNode n

/-- C5 counterexample: the document `"---"` parses to a single `hr` node
with neither `children` nor `text`. -/
theorem c5_counterexample : ¬ claimC5 := by
  intro h
  have h1 := h "---".toList [.el "hr" [] none none false none] DocSt.init rfl
  have h2 := h1 (.el "hr" [] none none false none) (by simp)
  cases h2 with
  | el _ _ _ _ _ _ hor _ => simp at hor

/-- The amended invariant: every node carries `children` or `text`, except
the void nodes — `hr` and `img` — which carry neither. -/
inductive OkNode : Node → Prop where
  | el : ∀ (name : String) (attrs : List (String × Str)) (ch : Option (List Node))
      (t : Option Str) (inl : Bool) (key : Option Str),
      (ch.isSome = true ∨ t.isSome = true ∨ name = "hr" ∨ name = "img") →
      (∀ c ∈ ch.getD [], OkNode c) →
      OkNode (.el name attrs ch t inl key)
  | nstr : ∀ s, OkNode (.nstr s)
  | ngroup : ∀ g, (∀ c ∈ g, OkNode c) → OkNode (.ngroup g)

/-- Text nodes satisfy the invariant. -/
theorem okNode_textN (s : Str) : OkNode (Node.textN s) :=
  OkNode.el _ _ _ _ _ _ (Or.inr (Or.inl rfl)) (by simp)

/-- Nodes with present children and good children satisfy the invariant. -/
theorem okNode_tag (name : String) (ch : List Node) (h : ∀ c ∈ ch, OkNode c) :
    OkNode (Node.tag name ch) :=
  OkNode.el _ _ _ _ _ _ (Or.inl rfl) (by simpa using h)

/-- Same, with attributes. -/
theorem okNode_el_some (name : String) (attrs : List (String × Str)) (ch : List Node)
    (t : Option Str) (inl : Bool) (key : Option Str) (h : ∀ c ∈ ch, OkNode c) :
    OkNode (.el name attrs (some ch) t inl key) :=
  OkNode.el _ _ _ _ _ _ (Or.inl rfl) (by simpa using h)

/-- Setting the inline flag preserves the invariant. -/
theorem okNode_setInline (n : Node) (h : OkNode n) : OkNode n.setInline := by
  cases n with
  | el nm a ch t i k =>
    cases h with
    | el _ _ _ _ _ _ h1 h2 => exact OkNode.el _ _ _ _ _ _ h1 h2
  | nstr s => exact h
  | ngroup g => exact h

/-- Flag-setting over a list preserves the invariant. -/
theorem okNode_map_setInline (l : List Node) (h : ∀ n ∈ l, OkNode n) :
    ∀ n ∈ l.map Node.setInline, OkNode n := by
  intro n hn
  simp only [List.mem_map] at hn
  obtain ⟨m, hm, rfl⟩ := hn
  exact okNode_setInline m (h m hm)

/-- Goodness distributes over append. -/
theorem okNode_append (l1 l2 : List Node) (h1 : ∀ n ∈ l1, OkNode n)
    (h2 : ∀ n ∈ l2, OkNode n) : ∀ n ∈ l1 ++ l2, OkNode n := by
  intro n hn
  rcases List.mem_append.mp hn with h | h
  · exact h1 n h
  · exact h2 n h

/-- Every node the inline engine accumulates satisfies the invariant: text
nodes carry text, `delimited`/`capture` spans and links carry children, and
`img` is one of the excepted void nodes. -/
theorem parseInlineF_ok :
    ∀ (fuel : Nat) (st : IState) (ender : Option Str) (ds : DocSt) (grams : List IGram)
      (acc : List Node), (∀ n ∈ acc, OkNode n) →
      ∀ n ∈ (parseInlineF fuel st ender ds grams acc).1, OkNode n := by
  intro fuel
  induction fuel with
  | zero =>
    intro st ender ds grams acc hacc
    simpa [parseInlineF] using hacc
  | succ f ih =>
    intro st ender ds grams acc hacc
    have hnil : ∀ n ∈ ([] : List Node), OkNode n :=
      fun n hn => absurd hn (List.not_mem_nil n)
    have hsingle : ∀ m : Node, OkNode m → ∀ n ∈ [m], OkNode n := by
      intro m hm n hn
      simp only [List.mem_singleton] at hn
      subst hn
      exact hm
    simp only [parseInlineF]
    by_cases hcur : st.cursor < st.text.length
    · rw [if_pos hcur]
      set eidx := (match ender with
        | none => st.text.length
        | some e => (findUnescaped st.text e st.cursor).getD st.text.length) with heidx
      set sel := selectGram grams st eidx with hselDef
      set acc1 := (if st.cursor < sel.1 then
          acc ++ [Node.textN (noesc ((st.text.drop st.cursor).take (sel.1 - st.cursor)))]
        else acc) with hacc1def
      set st1 := (if st.cursor < sel.1 then ({ st with cursor := sel.1 } : IState) else st)
        with hst1def
      have hacc1 : ∀ n ∈ acc1, OkNode n := by
        rw [hacc1def]
        split
        · exact okNode_append _ _ hacc (hsingle _ (okNode_textN _))
        · exact hacc
      split
      · exact hacc1
      · split
        · -- delimited
          exact ih _ _ _ _ _ (okNode_append _ _ hacc1 (hsingle _
            (okNode_tag _ _ (okNode_map_setInline _ (ih _ _ _ _ _ hnil)))))
        · -- capture
          split
          · exact ih _ _ _ _ _ (okNode_append _ _ hacc1 (hsingle _
              (okNode_tag _ _ (hsingle _ (okNode_textN _)))))
          · exact ih _ _ _ _ _ (okNode_append _ _ hacc1 (hsingle _ (okNode_textN _)))
        · -- footnote citation
          split
          · exact ih _ _ _ _ _ (okNode_append _ _ hacc1 (hsingle _
              (okNode_tag _ _ (hsingle _
                (okNode_el_some _ _ _ _ _ _ (hsingle _ (okNode_textN _)))))))
          · exact ih _ _ _ _ _ (okNode_append _ _ hacc1 (hsingle _ (okNode_textN _)))
        · -- link
          split
          · exact ih _ _ _ _ _ (okNode_append _ _ hacc1 (hsingle _ (okNode_textN _)))
          · refine ih _ _ _ _ _ (okNode_append _ _ hacc1 (hsingle _
              (okNode_el_some _ _ _ _ _ _ ?_)))
            intro c hc
            split at hc
            · simp only [List.mem_singleton] at hc
              subst hc
              exact okNode_textN _
            · exact okNode_map_setInline _ (ih _ _ _ _ _ hnil) c hc
        · -- image
          split
          · exact ih _ _ _ _ _ (okNode_append _ _ hacc1 (hsingle _ (okNode_textN _)))
          · split
            · exact ih _ _ _ _ _ (okNode_append _ _ hacc1 (hsingle _ (okNode_textN _)))
            · exact ih _ _ _ _ _ (okNode_append _ _ hacc1 (hsingle _
                (OkNode.el _ _ _ _ _ _ (Or.inr (Or.inr (Or.inr rfl))) (by simp))))
    · rw [if_neg hcur]
      exact hacc

/-- `parse_inline` output satisfies the invariant. -/
theorem parseInlineStr_ok (s : Str) (ds : DocSt) :
    ∀ n ∈ (parseInlineStr s ds).1, OkNode n := by
  simp only [parseInlineStr]
  exact okNode_map_setInline _
    (parseInlineF_ok _ _ _ _ _ _ (fun n hn => absurd hn (List.not_mem_nil n)))

/-- A callback record is good when both callbacks only ever produce good
nodes. -/
def GoodCB (cb : CB) : Prop :=
  (∀ ls ds ast ds1, cb.parse_blocks ls ds = .ok (ast, ds1) → ∀ n ∈ ast, OkNode n) ∧
  (∀ s ds, ∀ n ∈ (cb.parse_inline s ds).1, OkNode n)

/-- A block parser is good when, handed a good callback record, every node
it produces is good or is the `omit` placeholder. -/
def BPGood (p : BParser) : Prop :=
  ∀ cb lines ds n l1 ds1, GoodCB cb →
    p cb lines ds = .ok (some n, l1, ds1) → OkNode n ∨ n.nodeName = "omit"

theorem headerParse_good : BPGood headerParse := by
  intro cb lines ds n l1 ds1 hcb h
  cases lines with
  | nil => simp [headerParse] at h
  | cons l0 rest =>
    simp only [headerParse] at h
    cases hm : headerMatch l0 with
    | none => rw [hm] at h; simp at h
    | some pfx =>
      rw [hm] at h
      simp only [Except.ok.injEq, Prod.mk.injEq, Option.some.injEq] at h
      refine Or.inl ?_
      rw [← h.1]
      exact okNode_tag _ _ (hcb.2 _ _)

theorem blockquoteParse_good : BPGood blockquoteParse := by
  intro cb lines ds n l1 ds1 hcb h
  simp only [blockquoteParse] at h
  split at h
  · simp at h
  · split at h
    · simp at h
    · rename_i ch ds2 hpb
      simp only [Except.ok.injEq, Prod.mk.injEq, Option.some.injEq] at h
      refine Or.inl ?_
      rw [← h.1]
      exact okNode_tag _ _ (hcb.1 _ _ _ _ hpb)

theorem indentedParse_good : BPGood indentedParse := by
  intro cb lines ds n l1 ds1 _hcb h
  simp only [indentedParse] at h
  split at h
  · simp at h
  · simp only [Except.ok.injEq, Prod.mk.injEq, Option.some.injEq] at h
    refine Or.inl ?_
    rw [← h.1]
    refine okNode_tag _ _ ?_
    intro c hc
    simp only [List.mem_map] at hc
    obtain ⟨l, _, rfl⟩ := hc
    exact okNode_textN _

theorem fencedParse_good : BPGood fencedParse := by
  intro cb lines ds n l1 ds1 _hcb h
  cases lines with
  | nil => simp [fencedParse] at h
  | cons l0 rest =>
    simp only [fencedParse] at h
    split at h
    · split at h
      · simp at h
      · simp only [Except.ok.injEq, Prod.mk.injEq, Option.some.injEq] at h
        refine Or.inl ?_
        rw [← h.1]
        refine okNode_tag _ _ ?_
        intro c hc
        simp only [List.mem_map] at hc
        obtain ⟨l, _, rfl⟩ := hc
        exact okNode_textN _
    · simp at h

theorem hrParse_good : BPGood hrParse := by
  intro cb lines ds n l1 ds1 _hcb h
  cases lines with
  | nil => simp [hrParse] at h
  | cons l0 rest =>
    simp only [hrParse] at h
    split at h
    · simp only [Except.ok.injEq, Prod.mk.injEq, Option.some.injEq] at h
      refine Or.inl ?_
      rw [← h.1]
      exact OkNode.el _ _ _ _ _ _ (Or.inr (Or.inr (Or.inl rfl))) (by simp)
    · simp at h

theorem fnoteDefParse_good : BPGood fnoteDefParse := by
  intro cb lines ds n l1 ds1 _hcb h
  cases lines with
  | nil => simp [fnoteDefParse] at h
  | cons l0 rest =>
    simp only [fnoteDefParse] at h
    split at h
    · simp at h
    · simp only [Except.ok.injEq, Prod.mk.injEq, Option.some.injEq] at h
      exact Or.inr (by rw [← h.1]; rfl)

theorem hrefDefParse_good : BPGood hrefDefParse := by
  intro cb lines ds n l1 ds1 _hcb h
  cases lines with
  | nil => simp [hrefDefParse] at h
  | cons l0 rest =>
    simp only [hrefDefParse] at h
    split at h
    · simp at h
    · simp only [Except.ok.injEq, Prod.mk.injEq, Option.some.injEq] at h
      exact Or.inr (by rw [← h.1]; rfl)

theorem htmlGroupsParse_good : BPGood htmlGroupsParse := by
  intro cb lines ds n l1 ds1 _hcb h
  cases lines with
  | nil => simp [htmlGroupsParse] at h
  | cons l0 rest =>
    simp only [htmlGroupsParse] at h
    split at h
    · simp at h
    · split at h <;>
      · simp only [Except.ok.injEq, Prod.mk.injEq, Option.some.injEq] at h
        refine Or.inl ?_
        rw [← h.1]
        refine okNode_el_some _ _ _ _ _ _ ?_
        intro c hc
        simp only [List.mem_map] at hc
        obtain ⟨l, _, rfl⟩ := hc
        exact OkNode.nstr _

theorem htmlTagsParse_good : BPGood htmlTagsParse := by
  intro cb lines ds n l1 ds1 _hcb h
  cases lines with
  | nil => simp [htmlTagsParse] at h
  | cons l0 rest =>
    simp only [htmlTagsParse] at h
    split at h
    · simp only [Except.ok.injEq, Prod.mk.injEq, Option.some.injEq] at h
      refine Or.inl ?_
      rw [← h.1]
      refine okNode_el_some _ _ _ _ _ _ ?_
      intro c hc
      simp only [List.mem_singleton] at hc
      subst hc
      exact OkNode.nstr _
    · simp at h

/-- Every child list produced by mapping `parse_blocks` over the item line
arrays is made of good nodes. -/
theorem mapParseBlocks_ok (cb : CB) (hcb : GoodCB cb) :
    ∀ (lss : List (List Str)) (ds : DocSt) (nss : List (List Node)) (ds1 : DocSt),
      mapParseBlocks cb lss ds = .ok (nss, ds1) →
      ∀ ns ∈ nss, ∀ n ∈ ns, OkNode n := by
  intro lss
  induction lss with
  | nil =>
    intro ds nss ds1 h
    simp only [mapParseBlocks, Except.ok.injEq, Prod.mk.injEq] at h
    rw [← h.1]
    simp
  | cons ls rest ih =>
    intro ds nss ds1 h
    simp only [mapParseBlocks] at h
    split at h
    · simp at h
    · rename_i ns0 ds2 hpb
      split at h
      · simp at h
      · rename_i nss2 ds3 hmap
        simp only [Except.ok.injEq, Prod.mk.injEq] at h
        rw [← h.1]
        intro ns hns
        rcases List.mem_cons.mp hns with rfl | hns2
        · exact hcb.1 _ _ _ _ hpb
        · exact ih _ _ _ hmap ns hns2

theorem unorderedParse_good : BPGood unorderedParse := by
  intro cb lines ds n l1 ds1 hcb h
  simp only [unorderedParse] at h
  split at h
  · simp at h
  · split at h
    · simp at h
    · rename_i items2 hded
      split at h
      · simp at h
      · rename_i chs ds2 hmap
        simp only [Except.ok.injEq, Prod.mk.injEq, Option.some.injEq] at h
        refine Or.inl ?_
        rw [← h.1]
        refine okNode_el_some _ _ _ _ _ _ ?_
        intro c hc
        simp only [List.mem_map] at hc
        obtain ⟨ch, hch, rfl⟩ := hc
        exact okNode_tag _ _ (mapParseBlocks_ok cb hcb _ _ _ _ hmap ch hch)

theorem orderedParse_good : BPGood orderedParse := by
  intro cb lines ds n l1 ds1 hcb h
  simp only [orderedParse] at h
  split at h
  · simp at h
  · split at h
    · simp at h
    · rename_i items2 hded
      split at h
      · simp at h
      · rename_i chs ds2 hmap
        simp only [Except.ok.injEq, Prod.mk.injEq, Option.some.injEq] at h
        refine Or.inl ?_
        rw [← h.1]
        refine okNode_el_some _ _ _ _ _ _ ?_
        intro c hc
        simp only [List.mem_map] at hc
        obtain ⟨ch, hch, rfl⟩ := hc
        exact okNode_tag _ _ (mapParseBlocks_ok cb hcb _ _ _ _ hmap ch hch)

/-- A table cell as `table.row` builds it: an element with present, good
children. -/
def TCell (c : Node) : Prop :=
  ∃ cn ca cch cct ci ck, c = Node.el cn ca (some cch) cct ci ck ∧ ∀ x ∈ cch, OkNode x

/-- A table row as `table.row` builds it: an element whose children are all
cells. -/
def TRow (r : Node) : Prop :=
  ∃ n a ch t i k, r = Node.el n a (some ch) t i k ∧ ∀ c ∈ ch, TCell c

theorem tcell_okNode (c : Node) (h : TCell c) : OkNode c := by
  obtain ⟨cn, ca, cch, cct, ci, ck, rfl, hch⟩ := h
  exact okNode_el_some _ _ _ _ _ _ hch

theorem trow_okNode (r : Node) (h : TRow r) : OkNode r := by
  obtain ⟨n, a, ch, t, i, k, rfl, hch⟩ := h
  exact okNode_el_some _ _ _ _ _ _ (fun c hc => tcell_okNode c (hch c hc))

/-- The cell fold of `table.row` only accumulates cells. -/
theorem tableRow_fold_tcell (cb : CB) (hcb : GoodCB cb) :
    ∀ (cols : List Str) (acc : List Node × DocSt), (∀ c ∈ acc.1, TCell c) →
      ∀ c ∈ (cols.foldl
        (fun (acc : List Node × DocSt) c =>
          (acc.1 ++ [Node.tag "td" (cb.parse_inline c acc.2).1],
           (cb.parse_inline c acc.2).2)) acc).1, TCell c := by
  intro cols
  induction cols with
  | nil => intro acc hacc; simpa using hacc
  | cons c0 rest ih =>
    intro acc hacc
    simp only [List.foldl_cons]
    apply ih
    intro c hc
    rcases List.mem_append.mp hc with h1 | h1
    · exact hacc c h1
    · simp only [List.mem_singleton] at h1
      subst h1
      exact ⟨_, _, _, _, _, _, rfl, by simpa using hcb.2 _ _⟩

/-- Any `tr` result of `table.row` is a row of cells. -/
theorem tableRowFn_tr (cb : CB) (hcb : GoodCB cb) :
    ∀ (line : Option Str) (num : Nat) (ds : DocSt) (r : Node) (ds1 : DocSt),
      tableRowFn cb line num ds = (some (.tr r), ds1) → TRow r := by
  intro line num ds r ds1 h
  cases line with
  | none => simp [tableRowFn] at h
  | some l =>
    simp only [tableRowFn] at h
    split at h
    · split at h
      · simp at h
      · simp only [Prod.mk.injEq, Option.some.injEq, RowRes.tr.injEq] at h
        rw [← h.1]
        exact ⟨_, _, _, _, _, _, rfl, tableRow_fold_tcell cb hcb _ _ (by simp)⟩
    · simp at h

/-- A `∀`-mover for `mapIdx`. -/
theorem mapIdx_forall {α β : Type} (P : β → Prop) :
    ∀ (l : List α) (f : Nat → α → β), (∀ i c, c ∈ l → P (f i c)) →
      ∀ b ∈ l.mapIdx f, P b := by
  intro l
  induction l with
  | nil => intro f _ b hb; simp at hb
  | cons a t ih =>
    intro f hf b hb
    rw [List.mapIdx_cons] at hb
    rcases List.mem_cons.mp hb with rfl | hb2
    · exact hf 0 a (by simp)
    · exact ih _ (fun i c hc => hf (i + 1) c (by simp [hc])) b hb2

/-- Applying an alignment row preserves the row-of-cells shape. -/
theorem applyAlignRow_trow (al : List Str) (r : Node) (h : TRow r) :
    TRow (applyAlignRow al r) := by
  obtain ⟨n, a, ch, t, i, k, rfl, hch⟩ := h
  simp only [applyAlignRow]
  refine ⟨n, a, _, t, i, k, rfl, ?_⟩
  apply mapIdx_forall
  intro j c hc
  have htc := hch c hc
  split
  · obtain ⟨cn, ca, cch, cct, ci, ck, rfl, hcch⟩ := htc
    exact ⟨cn, _, cch, cct, ci, ck, rfl, hcch⟩
  · exact htc

/-- Promoting cells to `th` preserves the row-of-cells shape. -/
theorem promoteTh_trow (r : Node) (h : TRow r) : TRow (promoteTh r) := by
  obtain ⟨n, a, ch, t, i, k, rfl, hch⟩ := h
  simp only [promoteTh]
  refine ⟨n, a, _, t, i, k, rfl, ?_⟩
  intro c hc
  simp only [List.mem_map] at hc
  obtain ⟨x, hx, rfl⟩ := hc
  obtain ⟨cn, ca, cch, cct, ci, ck, rfl, hcch⟩ := hch x hx
  exact ⟨"th", ca, cch, cct, ci, ck, rfl, hcch⟩

/-- The row-collection loop only accumulates rows of cells. -/
theorem tableLoop_trow (cb : CB) (hcb : GoodCB cb) :
    ∀ (fuel : Nat) (lines : List Str) (rc : Nat) (al : Option (List Str))
      (ar : Option Nat) (rows : List Node) (ds : DocSt),
      (∀ r ∈ rows, TRow r) →
      ∀ r ∈ (tableLoop fuel cb lines rc al ar rows ds).1, TRow r := by
  intro fuel
  induction fuel with
  | zero => intro lines rc al ar rows ds hrows; simpa [tableLoop] using hrows
  | succ f ih =>
    intro lines rc al ar rows ds hrows
    simp only [tableLoop]
    split
    · exact hrows
    · rename_i rr ds' heq
      split
      · exact ih _ _ _ _ _ _ hrows
      · rename_i nrow
        apply ih
        intro r hr
        rcases List.mem_append.mp hr with h1 | h1
        · exact hrows r h1
        · simp only [List.mem_singleton] at h1
          subst h1
          exact tableRowFn_tr cb hcb _ _ _ _ _ heq

theorem tableParse_good : BPGood tableParse := by
  intro cb lines ds n l1 ds1 hcb h
  simp only [tableParse] at h
  have hrows : ∀ r ∈ (tableLoop (lines.length + 1) cb lines 0 none none [] ds).1, TRow r :=
    tableLoop_trow cb hcb _ _ _ _ _ _ _ (by simp)
  split at h
  · simp at h
  · rename_i row0 restRows hrowsEq
    have hrows' : ∀ r ∈ row0 :: restRows, TRow r := hrowsEq ▸ hrows
    split at h
    · simp at h
    · rename_i al halEq
      have hrows1 : ∀ r ∈ (row0 :: restRows).map (applyAlignRow al), TRow r := by
        intro r hr
        simp only [List.mem_map] at hr
        obtain ⟨x, hx, rfl⟩ := hr
        exact applyAlignRow_trow al x (hrows' x hx)
      split at h
      · split at h
        · rename_i hh tt hr2
          have hall2 : ∀ r ∈ hh :: tt, TRow r := by
            rw [← hr2]
            split
            · split
              · rename_i h3 t3 heq3
                intro r hr
                rcases List.mem_cons.mp hr with rfl | hr4
                · exact promoteTh_trow h3 (hrows1 h3 (heq3 ▸ List.mem_cons_self _ _))
                · exact hrows1 r (heq3 ▸ List.mem_cons_of_mem _ hr4)
              · intro r hr
                simp at hr
            · exact hrows1
          simp only [Except.ok.injEq, Prod.mk.injEq, Option.some.injEq] at h
          refine Or.inl ?_
          rw [← h.1]
          refine okNode_tag _ _ ?_
          intro c hc
          rcases List.mem_cons.mp hc with rfl | hc2
          · exact okNode_tag _ _ (fun x hx => by
              simp only [List.mem_singleton] at hx
              subst hx
              exact trow_okNode _ (hall2 _ (List.mem_cons_self _ _)))
          · simp only [List.mem_singleton] at hc2
            subst hc2
            exact okNode_tag _ _ (fun x hx =>
              trow_okNode _ (hall2 _ (List.mem_cons_of_mem _ hx)))
        · simp at h
      · simp only [Except.ok.injEq, Prod.mk.injEq, Option.some.injEq] at h
        refine Or.inl ?_
        rw [← h.1]
        refine okNode_tag _ _ ?_
        intro c hc
        simp only [List.mem_singleton] at hc
        subst hc
        exact okNode_tag _ _ (fun x hx => trow_okNode _ (hrows' x hx))

/-- Trying a list of good parsers in order yields a good-or-omit node. -/
theorem tryBP_good :
    ∀ (ps : List BParser), (∀ p ∈ ps, BPGood p) →
      ∀ (cb : CB) (lines : List Str) (ds : DocSt) (n : Node) (l1 : List Str) (ds1 : DocSt),
        GoodCB cb → tryBP ps cb lines ds = .ok (some n, l1, ds1) →
        OkNode n ∨ n.nodeName = "omit" := by
  intro ps
  induction ps with
  | nil => intro _ cb lines ds n l1 ds1 _ h; simp [tryBP] at h
  | cons p rest ih =>
    intro hps cb lines ds n l1 ds1 hcb h
    simp only [tryBP] at h
    split at h
    · simp at h
    · rename_i n2 l2 ds2 heq
      simp only [Except.ok.injEq, Prod.mk.injEq, Option.some.injEq] at h
      rw [← h.1]
      exact hps p (List.mem_cons_self _ _) cb lines ds n2 l2 ds2 hcb heq
    · rename_i l2 ds2 heq
      exact ih (fun q hq => hps q (List.mem_cons_of_mem _ hq)) cb l2 ds2 n l1 ds1 hcb h

/-- All twelve registered block parsers are good. -/
theorem blockGrams_good : ∀ p ∈ blockGrams, BPGood p := by
  intro p hp
  simp only [blockGrams, List.mem_cons, List.not_mem_nil, or_false] at hp
  rcases hp with rfl | rfl | rfl | rfl | rfl | rfl | rfl | rfl | rfl | rfl | rfl | rfl
  · exact headerParse_good
  · exact blockquoteParse_good
  · exact indentedParse_good
  · exact fencedParse_good
  · exact unorderedParse_good
  · exact orderedParse_good
  · exact hrParse_good
  · exact fnoteDefParse_good
  · exact hrefDefParse_good
  · exact htmlGroupsParse_good
  · exact htmlTagsParse_good
  · exact tableParse_good

/-- The `textblock` flush yields good nodes. -/
theorem flushTB_ok (text : List Str) (ds : DocSt) :
    ∀ n ∈ (flushTB text ds).1, OkNode n := by
  simp only [flushTB]
  split
  · simp
  · exact parseInlineStr_ok _ _

/-- The `p` flush yields good nodes. -/
theorem flushP_ok (text : List Str) (ds : DocSt) :
    ∀ n ∈ (flushP text ds).1, OkNode n := by
  simp only [flushP]
  intro n hn
  simp only [List.mem_singleton] at hn
  subst hn
  exact okNode_tag _ _ (parseInlineStr_ok _ _)

/-- Every node `parse_blocks` adds to a good accumulator is good: `omit`
nodes are filtered, parser output is good, and flushed text is good. -/
theorem parse_blocksGo_ok :
    ∀ (fuel : Nat) (lines text : List Str) (ast : List Node) (ds : DocSt),
      (∀ n ∈ ast, OkNode n) →
      ∀ (ast1 : List Node) (ds1 : DocSt),
        parse_blocksGo fuel lines text ast ds = .ok (ast1, ds1) →
        ∀ n ∈ ast1, OkNode n := by
  intro fuel
  induction fuel with
  | zero =>
    intro lines text ast ds hast ast1 ds1 h
    simp only [parse_blocksGo, Except.ok.injEq, Prod.mk.injEq] at h
    rw [← h.1]
    exact hast
  | succ f ih =>
    intro lines text ast ds hast ast1 ds1 h
    have hcb : GoodCB ⟨fun ls ds2 => parse_blocksGo f ls [] [] ds2, parseInlineStr⟩ :=
      ⟨fun ls ds2 a d hh => ih ls [] [] ds2 (by simp) a d hh,
       fun s ds2 => parseInlineStr_ok s ds2⟩
    simp only [parse_blocksGo] at h
    split at h
    · simp only [Except.ok.injEq, Prod.mk.injEq] at h
      rw [← h.1]
      exact okNode_append _ _ hast (flushTB_ok _ _)
    · split at h
      · simp at h
      · rename_i n2 lines2 ds2 heq
        split at h
        · exact ih _ _ _ _ hast _ _ h
        · have hok : OkNode n2 := by
            rcases tryBP_good blockGrams blockGrams_good _ _ _ _ _ _ hcb heq with hg | hom
            · exact hg
            · rename_i hne
              exact absurd hom hne
          refine ih _ _ _ _ ?_ _ _ h
          exact okNode_append _ _ (okNode_append _ _ hast (flushTB_ok _ _))
            (fun x hx => by
              simp only [List.mem_singleton] at hx
              subst hx
              exact hok)
      · rename_i lines2 ds2 heq
        split at h
        · exact ih _ _ _ _ hast _ _ h
        · rename_i l0 restL
          split at h
          · split at h
            · refine ih _ _ _ _ ?_ _ _ h
              exact okNode_append _ _ hast (fun x hx => by
                simp only [List.mem_singleton] at hx
                subst hx
                exact okNode_textN _)
            · refine ih _ _ _ _ ?_ _ _ h
              exact okNode_append _ _ hast (flushP_ok _ _)
          · exact ih _ _ _ _ hast _ _ h

/-- The list side of the citation walk is a map of the node side. -/
theorem rewriteCiteL_eq_map (tn : List (Str × Nat)) :
    ∀ l : List Node, rewriteCiteL tn l = l.map (rewriteCite tn) := by
  intro l
  induction l with
  | nil => rfl
  | cons c cs ih => rw [rewriteCiteL, ih, List.map_cons]

/-- `rewriteCiteOne` keeps the children present-or-absent as they were and
keeps them good (the head child only gains a `text` field). -/
theorem rewriteCiteOne_ok (tn : List (Str × Nat)) (a : List (String × Str))
    (ch : Option (List Node)) (k : Str) (hch : ∀ c ∈ ch.getD [], OkNode c) :
    (rewriteCiteOne tn a ch k).2.1.isSome = ch.isSome ∧
    ∀ c ∈ (rewriteCiteOne tn a ch k).2.1.getD [], OkNode c := by
  simp only [rewriteCiteOne]
  split
  · exact ⟨rfl, hch⟩
  · rename_i num hnum
    constructor
    · split
      · rfl
      · rfl
    · split
      · rename_i cn ca cch cct ci ck crest
        intro c hc
        simp only [Option.getD_some] at hc
        rcases List.mem_cons.mp hc with rfl | hc2
        · have hhead := hch (.el cn ca cch cct ci ck) (by simp)
          cases hhead with
          | el _ _ _ _ _ _ hh1 hh2 =>
            exact OkNode.el _ _ _ _ _ _ (Or.inr (Or.inl rfl)) hh2
        · exact hch c (by simp [hc2])
      · exact hch

/-- A node-shape transfer helper: same name, same text, same
children-presence, good children. -/
theorem okNode_el_transfer (n : String) (a2 : List (String × Str))
    (ch ch2 : Option (List Node)) (t : Option Str) (i2 : Bool) (k2 : Option Str)
    (hsome : ch2.isSome = ch.isSome)
    (h1 : ch.isSome = true ∨ t.isSome = true ∨ n = "hr" ∨ n = "img")
    (h2 : ∀ c ∈ ch2.getD [], OkNode c) :
    OkNode (.el n a2 ch2 t i2 k2) := by
  refine OkNode.el _ _ _ _ _ _ ?_ h2
  rcases h1 with hx | hx | hx | hx
  · exact Or.inl (hsome.trans hx)
  · exact Or.inr (Or.inl hx)
  · exact Or.inr (Or.inr (Or.inl hx))
  · exact Or.inr (Or.inr (Or.inr hx))

/-- The citation walk preserves the invariant. -/
theorem rewriteCite_ok (tn : List (Str × Nat)) :
    ∀ nd : Node, OkNode nd → OkNode (rewriteCite tn nd) := by
  intro nd h
  induction h with
  | el name attrs ch t i k h1 h2 ihc =>
    cases k with
    | none =>
      cases ch with
      | none =>
        show OkNode (.el name attrs none t i none)
        exact OkNode.el _ _ _ _ _ _ h1 (by simp)
      | some l =>
        show OkNode (.el name attrs (some (rewriteCiteL tn l)) t i none)
        refine OkNode.el _ _ _ _ _ _ (Or.inl rfl) ?_
        intro c hc
        simp only [Option.getD_some, rewriteCiteL_eq_map, List.mem_map] at hc
        obtain ⟨x, hx, rfl⟩ := hc
        exact ihc x (by simpa using hx)
    | some kk =>
      cases ch with
      | none =>
        have hro := rewriteCiteOne_ok tn attrs none kk (by simp)
        show OkNode (.el name (rewriteCiteOne tn attrs none kk).1
          (rewriteCiteOne tn attrs none kk).2.1 t i
          (some (rewriteCiteOne tn attrs none kk).2.2))
        exact okNode_el_transfer _ _ none _ _ _ _ hro.1 h1 hro.2
      | some l =>
        have hch1 : ∀ c ∈ (some (rewriteCiteL tn l)).getD [], OkNode c := by
          intro c hc
          simp only [Option.getD_some, rewriteCiteL_eq_map, List.mem_map] at hc
          obtain ⟨x, hx, rfl⟩ := hc
          exact ihc x (by simpa using hx)
        have hro := rewriteCiteOne_ok tn attrs (some (rewriteCiteL tn l)) kk hch1
        show OkNode (.el name (rewriteCiteOne tn attrs (some (rewriteCiteL tn l)) kk).1
          (rewriteCiteOne tn attrs (some (rewriteCiteL tn l)) kk).2.1 t i
          (some (rewriteCiteOne tn attrs (some (rewriteCiteL tn l)) kk).2.2))
        exact okNode_el_transfer _ _ (some l) _ _ _ _ (by rw [hro.1]; rfl) h1 hro.2
  | nstr s => exact OkNode.nstr s
  | ngroup g hg ihg =>
    show OkNode (.ngroup (rewriteCiteL tn g))
    refine OkNode.ngroup _ ?_
    intro c hc
    rw [rewriteCiteL_eq_map] at hc
    simp only [List.mem_map] at hc
    obtain ⟨x, hx, rfl⟩ := hc
    exact ihg x hx

/-- The citation walk over a list preserves the invariant. -/
theorem rewriteCiteL_ok (tn : List (Str × Nat)) (l : List Node)
    (h : ∀ n ∈ l, OkNode n) : ∀ n ∈ rewriteCiteL tn l, OkNode n := by
  rw [rewriteCiteL_eq_map]
  intro n hn
  simp only [List.mem_map] at hn
  obtain ⟨x, hx, rfl⟩ := hn
  exact rewriteCite_ok tn x (h x hx)

/-- The list side of the href walk is a map of the node side. -/
theorem rewriteHrefL_eq_map (hdefs : List (Str × Str)) :
    ∀ l : List Node, rewriteHrefL hdefs l = l.map (rewriteHref hdefs) := by
  intro l
  induction l with
  | nil => rfl
  | cons c cs ih => rw [rewriteHrefL, ih, List.map_cons]

/-- The unfolding of the href walk on a childless element. -/
theorem rewriteHref_el_none (hdefs : List (Str × Str)) (n : String)
    (a : List (String × Str)) (t : Option Str) (i : Bool) (k : Option Str) :
    rewriteHref hdefs (.el n a none t i k) =
    if n = "a" ∧ k = none then .el "a" (hrefLinkAttrs hdefs a) none t i none
    else if n = "img" then .el "img" (hrefImgAttrs hdefs a) none t i k
    else .el n a none t i k := rfl

/-- The unfolding of the href walk on an element with children. -/
theorem rewriteHref_el_some (hdefs : List (Str × Str)) (n : String)
    (a : List (String × Str)) (l : List Node) (t : Option Str) (i : Bool)
    (k : Option Str) :
    rewriteHref hdefs (.el n a (some l) t i k) =
    if n = "a" ∧ k = none then
      .el "a" (hrefLinkAttrs hdefs a) (some (rewriteHrefL hdefs l)) t i none
    else if n = "img" then
      .el "img" (hrefImgAttrs hdefs a) (some (rewriteHrefL hdefs l)) t i k
    else .el n a (some (rewriteHrefL hdefs l)) t i k := rfl

/-- The href walk preserves the invariant: it only redirects attributes. -/
theorem rewriteHref_ok (hdefs : List (Str × Str)) :
    ∀ nd : Node, OkNode nd → OkNode (rewriteHref hdefs nd) := by
  intro nd h
  induction h with
  | el name attrs ch t i k h1 h2 ihc =>
    cases ch with
    | none =>
      rw [rewriteHref_el_none]
      by_cases hcond : name = "a" ∧ k = none
      · rw [if_pos hcond]
        obtain ⟨hn, hk⟩ := hcond
        subst hn
        exact okNode_el_transfer _ _ none _ _ _ _ rfl h1 (by simp)
      · rw [if_neg hcond]
        by_cases himg : name = "img"
        · rw [if_pos himg]
          subst himg
          exact okNode_el_transfer _ _ none _ _ _ _ rfl h1 (by simp)
        · rw [if_neg himg]
          exact okNode_el_transfer _ _ none _ _ _ _ rfl h1 (by simp)
    | some l =>
      have hch2 : ∀ c ∈ (some (rewriteHrefL hdefs l)).getD [], OkNode c := by
        intro c hc
        simp only [Option.getD_some, rewriteHrefL_eq_map, List.mem_map] at hc
        obtain ⟨x, hx, rfl⟩ := hc
        exact ihc x (by simpa using hx)
      rw [rewriteHref_el_some]
      by_cases hcond : name = "a" ∧ k = none
      · rw [if_pos hcond]
        obtain ⟨hn, hk⟩ := hcond
        subst hn
        exact okNode_el_transfer _ _ (some l) _ _ _ _ rfl h1 hch2
      · rw [if_neg hcond]
        by_cases himg : name = "img"
        · rw [if_pos himg]
          subst himg
          exact okNode_el_transfer _ _ (some l) _ _ _ _ rfl h1 hch2
        · rw [if_neg himg]
          exact okNode_el_transfer _ _ (some l) _ _ _ _ rfl h1 hch2
  | nstr s => exact OkNode.nstr s
  | ngroup g hg ihg =>
    show OkNode (.ngroup (rewriteHrefL hdefs g))
    refine OkNode.ngroup _ ?_
    intro c hc
    rw [rewriteHrefL_eq_map] at hc
    simp only [List.mem_map] at hc
    obtain ⟨x, hx, rfl⟩ := hc
    exact ihg x hx

/-- The href walk over a list preserves the invariant. -/
theorem rewriteHrefL_ok (hdefs : List (Str × Str)) (l : List Node)
    (h : ∀ n ∈ l, OkNode n) : ∀ n ∈ rewriteHrefL hdefs l, OkNode n := by
  rw [rewriteHrefL_eq_map]
  intro n hn
  simp only [List.mem_map] at hn
  obtain ⟨x, hx, rfl⟩ := hn
  exact rewriteHref_ok hdefs x (h x hx)

/-- Giving the footnote items their ids preserves the invariant. -/
theorem setFootnoteIds_ok (d : Node) (hd : OkNode d) (d1 : Node)
    (h : setFootnoteIds d = .ok d1) : OkNode d1 := by
  cases hd with
  | el name attrs ch t i k h1 h2 =>
    cases ch with
    | none => simp [setFootnoteIds] at h
    | some l =>
      simp only [setFootnoteIds, Except.ok.injEq] at h
      rw [← h]
      refine OkNode.el _ _ _ _ _ _ (Or.inl rfl) ?_
      simp only [Option.getD_some]
      apply mapIdx_forall
      intro j c hc
      have hco := h2 c (by simpa using hc)
      cases hco with
      | el cn ca cch cct ci ck hc1 hc2 =>
        exact OkNode.el _ _ _ _ _ _ hc1 hc2
      | nstr s => exact OkNode.nstr s
      | ngroup g hg => exact OkNode.ngroup g hg
  | nstr s => simp [setFootnoteIds] at h
  | ngroup g hg => simp [setFootnoteIds] at h

/-- The footnote postprocess hook preserves the invariant on the whole AST. -/
theorem footnotePost_ok (cb : CB) (hcb : GoodCB cb) (ast : List Node) (ds : DocSt)
    (hast : ∀ n ∈ ast, OkNode n) (ast1 : List Node) (ds1 : DocSt)
    (h : footnotePost cb ast ds = .ok (ast1, ds1)) : ∀ n ∈ ast1, OkNode n := by
  simp only [footnotePost] at h
  split at h
  · simp at h
  · rename_i defLines hgd
    split at h
    · simp at h
    · rename_i defs ds2 hpb
      have hdefs : ∀ n ∈ defs, OkNode n := hcb.1 _ _ _ _ hpb
      split at h
      · simp only [Except.ok.injEq, Prod.mk.injEq] at h
        rw [← h.1]
        exact rewriteCiteL_ok _ _ hast
      · rename_i d0 drest
        split at h
        · simp at h
        · rename_i d0' hset
          simp only [Except.ok.injEq, Prod.mk.injEq] at h
          rw [← h.1]
          refine okNode_append _ _ (rewriteCiteL_ok _ _ hast) ?_
          intro x hx
          simp only [List.mem_singleton] at hx
          subst hx
          refine okNode_el_some _ _ _ _ _ _ ?_
          intro c hc
          simp only [List.mem_singleton] at hc
          subst hc
          refine OkNode.ngroup _ ?_
          intro y hy
          rcases List.mem_cons.mp hy with rfl | hy2
          · exact setFootnoteIds_ok d0 (hdefs d0 (by simp)) _ hset
          · exact hdefs y (by simp [hy2])

/-- The callback record built from the real engine is good. -/
theorem goodCB_cbMain : GoodCB cbMain := by
  constructor
  · intro ls ds ast ds1 h
    simp only [cbMain, parse_blocksTop] at h
    exact parse_blocksGo_ok _ _ _ _ _ (by simp) _ _ h
  · intro s ds
    exact parseInlineStr_ok s ds

/-- C5 (amended): every node in the final AST produced by the pipeline — at
every nesting depth — carries a `children` field or a `text` field, except
the void nodes `hr` and `img`, which carry neither. -/
theorem c5_amended :
    ∀ (doc : Str) (ast : List Node) (ds : DocSt),
      pipelineAst doc = .ok (ast, ds) → ∀ n ∈ ast, OkNode n := by
  intro doc ast ds h n hn
  simp only [pipelineAst] at h
  split at h
  · simp at h
  · rename_i ast0 ds1 hpb
    have hast0 : ∀ m ∈ ast0, OkNode m := by
      simp only [parse_blocksTop] at hpb
      exact parse_blocksGo_ok _ _ _ _ _ (by simp) _ _ hpb
    split at h
    · simp at h
    · rename_i ast2 ds2 hfp
      have hast2 := footnotePost_ok cbMain goodCB_cbMain ast0 ds1 hast0 ast2 ds2 hfp
      simp only [Except.ok.injEq, Prod.mk.injEq] at h
      exact rewriteHrefL_ok _ _ hast2 n (h.1 ▸ hn)

/-- C5 witness: the document `"---"` parses to the single void `hr` node,
and the amended invariant holds of that AST. -/
theorem c5_witness :
    pipelineAst "---".toList = .ok ([Node.el "hr" [] none none false none], DocSt.init) ∧
    OkNode (Node.el "hr" [] none none false none) :=
  ⟨rfl, c5_amended "---".toList [Node.el "hr" [] none none false none] DocSt.init rfl
    (Node.el "hr" [] none none false none) (by simp)⟩
